import Mathlib

/-!
# cpprange: a shallow embedding of `range.hpp`

The header `range.hpp` defines `GenericRange<I>`, a pair of cursors, a family of
adaptor cursors (`MapIterator`, `SplitIterator`, `TilingIterator`,
`FilterIterator`, `IotaIterator`) and free functions that build or consume
ranges.  This file embeds them as Lean functions:

* a cursor type `I` comes with its operations packed in a `Cursor I V` record
  (`operator*`, `operator++`, `operator==`, `std::distance`), extended by
  `RandomCursor I V` for the random access operations (`<`, `>=`, `+`, `-`);
* a raw pointer into an array is an integer offset into a `List`, the backing
  storage; reading outside the storage is a fault;
* a value of a C++ integral type is an `Int` within the bounds of the type
  (`IntType`), and the arithmetic of `IotaIterator` and of `tile` reduces
  modulo `2 ^ width` where the source computes in the type;
* `assert` is a fatal failure: every operation returns in `Res`, an `Except`
  whose error says why no result was produced;
* loops of the source that are not bounded by the shape of their input take a
  step budget (`fuel`); running out of it is the fault `Fault.fuel`, kept apart
  from the failures of the program itself.
-/

namespace CppRange

/-- Reasons for which a run of the library yields no result. -/
inductive Fault where
  /-- An `assert(...)` of the source does not hold: fatal precondition failure. -/
  | assertion
  /-- A cursor is dereferenced outside its backing storage (undefined in C++). -/
  | outOfBounds
  /-- An integer division or remainder by zero (undefined in C++). -/
  | divByZero
  /-- An integer division or remainder whose quotient is no value of the type
  (undefined in C++). -/
  | overflow
  /-- The step budget given to a loop of the model is used up. -/
  | fuel
deriving DecidableEq

deriving instance DecidableEq for Except

/-- Result of running a piece of the library. -/
abbrev Res (α : Type) : Type := Except Fault α

/-- The `assert( cond )` of `<cassert>`. -/
def assert (cond : Bool) : Res Unit :=
  if cond then .ok () else .error Fault.assertion

/-! ## Cursors -/

/-- Operations every cursor type `I` with value type `V` offers to the library.
`deref` is `operator*`: it returns the value and the cursor after the call,
since the adaptors `FilterIterator` and `SplitIterator` move inside it.
`distance a b` is `std::distance( a, b )`. -/
structure Cursor (I V : Type) where
  deref : I → Res (V × I)
  inc : I → Res I
  eq : I → I → Bool
  distance : I → I → Res Int

/-- Operations of a random access cursor: `operator<`, `operator>=`,
`operator+( c )` and `operator-( c )`. -/
structure RandomCursor (I V : Type) extends Cursor I V where
  lt : I → I → Bool
  ge : I → I → Bool
  add : I → Int → I
  sub : I → Int → I

/-- `std::distance( first, last )` for a forward cursor: count the increments
that take `first` to `last`. -/
def countDistance {I : Type} (inc : I → Res I) (eq : I → I → Bool) :
    Nat → I → I → Res Int
  | 0, _, _ => .error Fault.fuel
  | fuel + 1, first, last =>
    if eq first last then .ok 0
    else do
      let first ← inc first
      let n ← countDistance inc eq fuel first last
      pure (n + 1)

/-- A raw pointer `T*` into the array `mem`, as the offset of the pointed
element; offsets outside `0 .. mem.length - 1` cannot be read. -/
def ptr {α : Type} (mem : List α) : RandomCursor Int α where
  deref p :=
    if 0 ≤ p then
      match mem[p.toNat]? with
      | some v => .ok (v, p)
      | none => .error Fault.outOfBounds
    else .error Fault.outOfBounds
  inc p := .ok (p + 1)
  eq p q := decide (p = q)
  distance p q := .ok (q - p)
  lt p q := decide (p < q)
  ge p q := decide (p ≥ q)
  add p c := p + c
  sub p c := p - c

/-! ## GenericRange -/

/-- The `GenericRange<I>` of the source: beginning and ending cursor. -/
structure GenericRange (I : Type) where
  _b : I
  _e : I
deriving DecidableEq

/-- The method `GenericRange::size`: `std::distance( _b, _e )`. -/
def GenericRange.size {I V : Type} (c : Cursor I V) (r : GenericRange I) : Res Int :=
  c.distance r._b r._e

/-- The function `range( begin, end )`. -/
def range {I : Type} (b e : I) : GenericRange I := ⟨b, e⟩

/-- The function `range( r )` over a whole container, here the array `mem`:
`range( v, v + length )`. -/
def rangeOf {α : Type} (mem : List α) : GenericRange Int := ⟨0, mem.length⟩

/-- The range based `for ( auto e : range ) body`: starting from `it`, while
`it != last`, dereference, run the body on the value, increment.  The body acts
on a state `σ`. -/
def rangeFor {I V σ : Type} (c : Cursor I V) (body : σ → V → σ) :
    Nat → I → I → σ → Res σ
  | 0, _, _, _ => .error Fault.fuel
  | fuel + 1, it, last, s =>
    if c.eq it last then .ok s
    else do
      let (v, it) ← c.deref it
      let it ← c.inc it
      rangeFor c body fuel it last (body s v)

/-- The function `each( fn, range )`: `fn` is called on every element in cursor
order; the result is the list of the values `fn` was called with. -/
def each {I V : Type} (c : Cursor I V) (fuel : Nat) (range : GenericRange I) :
    Res (List V) :=
  rangeFor c (fun trace e => trace ++ [e]) fuel range._b range._e []

/-! ## take, drop, tail -/

/-- The function `take( range, n )`. -/
def take {I V : Type} (c : RandomCursor I V) (range : GenericRange I) (n : Nat) :
    Res (GenericRange I) := do
  assert (decide (n > 0))
  let b := range._b
  let e := c.add b n
  assert (c.lt b e)
  pure ⟨b, e⟩

/-- The function `drop( range, n )`; the source gives `n` the default 1. -/
def drop {I V : Type} (c : RandomCursor I V) (range : GenericRange I) (n : Nat) :
    Res (GenericRange I) := do
  let b := c.add range._b n
  let e := range._e
  assert (c.lt b e)
  pure ⟨b, e⟩

/-- The function `tail( range, n )`. -/
def tail {I V : Type} (c : RandomCursor I V) (range : GenericRange I) (n : Nat) :
    Res (GenericRange I) := do
  let b := c.sub range._e n
  let e := range._e
  assert (c.lt b e)
  assert (c.ge b range._b)
  pure ⟨b, e⟩

/-! ## reduce, fold -/

/-- The function `reduce( fn, range )`. -/
def reduce {I V : Type} (c : RandomCursor I V) (fn : V → V → V) (fuel : Nat)
    (range : GenericRange I) : Res V := do
  let sz ← range.size c.toCursor
  assert (decide (sz > 0))
  let r := CppRange.range range._b range._e
  let (acc, _) ← c.deref r._b
  let rest ← drop c range 1
  rangeFor c.toCursor (fun acc i => fn acc i) fuel rest._b rest._e acc

/-- The function `fold( fn, acc, range )`. -/
def fold {I V : Type} (c : Cursor I V) (fn : V → V → V) (acc : V) (fuel : Nat)
    (range : GenericRange I) : Res V :=
  rangeFor c (fun acc i => fn acc i) fuel range._b range._e acc

/-! ## MapIterator -/

/-- The `MapIterator<I, Fn>` of the source: an inner cursor and the function
applied on dereference. -/
structure MapIterator (I V W : Type) where
  iter : I
  fn : V → W

/-- Forward operations of `MapIterator`: `operator*` is `fn( *iter )`, the
others are those of `RANDOM_ACCESS_ITERATOR_WRAPPER_IMPL` and act on `iter`. -/
def MapIterator.cursor {I V W : Type} (c : Cursor I V) : Cursor (MapIterator I V W) W where
  deref m := do
    let (v, i) ← c.deref m.iter
    pure (m.fn v, { m with iter := i })
  inc m := do
    let i ← c.inc m.iter
    pure { m with iter := i }
  eq m o := c.eq m.iter o.iter
  distance m o := c.distance m.iter o.iter

/-- Random access operations of `MapIterator`. -/
def MapIterator.randomCursor {I V W : Type} (c : RandomCursor I V) :
    RandomCursor (MapIterator I V W) W where
  toCursor := MapIterator.cursor c.toCursor
  lt m o := c.lt m.iter o.iter
  ge m o := c.ge m.iter o.iter
  add m k := { m with iter := c.add m.iter k }
  sub m k := { m with iter := c.sub m.iter k }

/-- The function `map( fn, range )`. -/
def map {I V W : Type} (fn : V → W) (range : GenericRange I) :
    GenericRange (MapIterator I V W) :=
  ⟨⟨range._b, fn⟩, ⟨range._e, fn⟩⟩

/-! ## FilterIterator -/

/-- The `FilterIterator<I, Fn>` of the source. -/
structure FilterIterator (I V : Type) where
  iter : I
  end_ : I
  fn : V → Bool

/-- The loop `while( iter != end && !fn( *iter ) ) ++iter;` of
`FilterIterator::operator*`. -/
def FilterIterator.skip {I V : Type} (c : Cursor I V) :
    Nat → FilterIterator I V → Res (FilterIterator I V)
  | 0, _ => .error Fault.fuel
  | fuel + 1, f =>
    if c.eq f.iter f.end_ then .ok f
    else do
      let (v, i) ← c.deref f.iter
      if f.fn v then pure { f with iter := i }
      else do
        let i ← c.inc i
        FilterIterator.skip c fuel { f with iter := i }

/-- The `operator++` of `FilterIterator`: one step, unless at `end`. -/
def FilterIterator.next {I V : Type} (c : Cursor I V) (f : FilterIterator I V) :
    Res (FilterIterator I V) :=
  if c.eq f.iter f.end_ then .ok f
  else do
    let i ← c.inc f.iter
    pure { f with iter := i }

/-- Operations of `FilterIterator`: `operator*` skips, then returns `*iter`
whatever the position reached; comparison looks at `iter` only. -/
def FilterIterator.cursor {I V : Type} (c : Cursor I V) (fuel : Nat) :
    Cursor (FilterIterator I V) V where
  deref f := do
    let f ← FilterIterator.skip c fuel f
    let (v, i) ← c.deref f.iter
    pure (v, { f with iter := i })
  inc f := FilterIterator.next c f
  eq f o := c.eq f.iter o.iter
  distance f o :=
    countDistance (FilterIterator.next c) (fun f o => c.eq f.iter o.iter) fuel f o

/-- The function `filter( fn, range )`. -/
def filter {I V : Type} (fn : V → Bool) (range : GenericRange I) :
    GenericRange (FilterIterator I V) :=
  ⟨⟨range._b, range._e, fn⟩, ⟨range._e, range._e, fn⟩⟩

/-! ## SplitIterator -/

/-- The `SplitIterator<I>` of the source. -/
structure SplitIterator (I T : Type) where
  iter : I
  end_ : I
  delimiter : T
  pe_cache : I

/-- The loop `while( ++pe_cache != end && *pe_cache != delimiter ) {}` of
`reparse_for_end`, on the cache position. -/
def SplitIterator.scan {I T : Type} [DecidableEq T] (c : Cursor I T) (end_ : I)
    (delimiter : T) : Nat → I → Res I
  | 0, _ => .error Fault.fuel
  | fuel + 1, pe => do
    let pe ← c.inc pe
    if c.eq pe end_ then pure pe
    else do
      let (v, pe) ← c.deref pe
      if v ≠ delimiter then SplitIterator.scan c end_ delimiter fuel pe
      else pure pe

/-- The method `SplitIterator::reparse_for_end`. -/
def SplitIterator.reparse_for_end {I T : Type} [DecidableEq T] (c : Cursor I T)
    (fuel : Nat) (s : SplitIterator I T) : Res (SplitIterator I T) := do
  let s ←
    if c.eq s.pe_cache s.iter then do
      let pe ← SplitIterator.scan c s.end_ s.delimiter fuel s.pe_cache
      pure { s with pe_cache := pe }
    else pure s
  assert (!c.eq s.iter s.pe_cache)
  pure s

/-- The `operator++` of `SplitIterator`. -/
def SplitIterator.next {I T : Type} [DecidableEq T] (c : Cursor I T)
    (fuel : Nat) (s : SplitIterator I T) : Res (SplitIterator I T) := do
  let s ← SplitIterator.reparse_for_end c fuel s
  let pe ← if !c.eq s.pe_cache s.end_ then c.inc s.pe_cache else pure s.pe_cache
  pure { s with pe_cache := pe, iter := pe }

/-- Operations of `SplitIterator`: `operator*` yields the range
`( iter, pe_cache )` after `reparse_for_end`; comparison looks at `iter`. -/
def SplitIterator.cursor {I T : Type} [DecidableEq T] (c : Cursor I T) (fuel : Nat) :
    Cursor (SplitIterator I T) (GenericRange I) where
  deref s := do
    let s ← SplitIterator.reparse_for_end c fuel s
    pure (⟨s.iter, s.pe_cache⟩, s)
  inc s := SplitIterator.next c fuel s
  eq s o := c.eq s.iter o.iter
  distance s o :=
    countDistance (SplitIterator.next c fuel) (fun s o => c.eq s.iter o.iter) fuel s o

/-- The function `split( range, delimiter )`. -/
def split {I T : Type} (range : GenericRange I) (delimiter : T) :
    GenericRange (SplitIterator I T) :=
  ⟨⟨range._b, range._e, delimiter, range._b⟩, ⟨range._e, range._e, delimiter, range._e⟩⟩

/-- The function `byLine( string )`: the string is the array of its characters. -/
def byLine (string : List Char) : GenericRange (SplitIterator Int Char) :=
  ⟨⟨0, string.length, '\n', 0⟩, ⟨string.length, string.length, '\n', string.length⟩⟩

/-! ## TilingIterator -/

/-- The `TilingIterator<I>` of the source: start and end of the current tile. -/
structure TilingIterator (I : Type) where
  iter : I
  end_ : I
deriving DecidableEq

/-- The `operator++` of `TilingIterator`. -/
def TilingIterator.next {I V : Type} (c : RandomCursor I V) (t : TilingIterator I) :
    Res (TilingIterator I) := do
  let d ← c.distance t.iter t.end_
  let iter := t.end_
  pure ⟨iter, c.add iter d⟩

/-- Operations of `TilingIterator`: `operator*` is the range `( iter, end )`;
comparison looks at `iter`. -/
def TilingIterator.cursor {I V : Type} (c : RandomCursor I V) (fuel : Nat) :
    Cursor (TilingIterator I) (GenericRange I) where
  deref t := .ok (⟨t.iter, t.end_⟩, t)
  inc t := TilingIterator.next c t
  eq t o := c.eq t.iter o.iter
  distance t o :=
    countDistance (TilingIterator.next c) (fun t o => c.eq t.iter o.iter) fuel t o

/-- The conversion `static_cast<int>( x )`, `int` being 32 bits wide. -/
def castInt (x : Int) : Int := (x + 2147483648) % 4294967296 - 2147483648

/-- The conversion of an integer to `size_t`, 64 bits wide. -/
def castSizeT (x : Int) : Int := x % 18446744073709551616

/-- The function `tile( range, tile_size )`.  `el` is an `int` while
`tile_size` is a `size_t`: `el % tile_size` is computed in `size_t` and the
difference converted back to `int`. -/
def tile {I V : Type} (c : RandomCursor I V) (range : GenericRange I) (tile_size : Nat) :
    Res (GenericRange (TilingIterator I)) := do
  let sz ← range.size c.toCursor
  let el := castInt sz
  if tile_size = 0 then .error Fault.divByZero
  else do
    let el := castInt (castSizeT (castSizeT el - castSizeT el % (tile_size : Int)))
    assert (decide (el > 0))
    pure ⟨⟨range._b, c.add range._b tile_size⟩, ⟨c.add range._b el, range._e⟩⟩

/-! ## IotaIterator -/

/-- The integral types at which `IotaIterator<I, J>` is taken here, `J` being
its default `I`: `int` and `unsigned`, 32 bits wide, `long` and `unsigned long`,
64 bits wide.  They are the types of rank at least `int`, whose arithmetic is
carried out in the type itself, without integer promotion. -/
inductive IntType where
  | int
  | unsigned
  | long
  | unsignedLong
deriving DecidableEq

/-- The least value of the type. -/
def IntType.min : IntType → Int
  | .int => -2147483648
  | .unsigned => 0
  | .long => -9223372036854775808
  | .unsignedLong => 0

/-- The greatest value of the type. -/
def IntType.max : IntType → Int
  | .int => 2147483647
  | .unsigned => 4294967295
  | .long => 9223372036854775807
  | .unsignedLong => 18446744073709551615

/-- The number of values of the type, `2 ^ width`. -/
def IntType.modulus : IntType → Int
  | .int => 4294967296
  | .unsigned => 4294967296
  | .long => 18446744073709551616
  | .unsignedLong => 18446744073709551616

/-- The integer `x` is a value of the type. -/
def IntType.rep (T : IntType) (x : Int) : Prop := T.min ≤ x ∧ x ≤ T.max

instance (T : IntType) (x : Int) : Decidable (T.rep x) := by
  unfold IntType.rep
  infer_instance

/-- The value of the type congruent to `x` modulo `2 ^ width`: what a sum,
difference or product leaves in the type, and what a conversion to the type
gives.  For `unsigned` and `unsigned long` this is the arithmetic of C++; for
`int` and `long`, whose overflow C++ leaves undefined, it is the two's
complement result of the compiled code. -/
def IntType.wrap (T : IntType) (x : Int) : Int :=
  (x - T.min) % T.modulus + T.min

/-- The quotient `a / b` in the type, truncated towards zero.  A zero divisor
and a quotient that is no value of the type (the least value of a signed type
divided by `-1`) are undefined in C++ and trap. -/
def IntType.div (T : IntType) (a b : Int) : Res Int :=
  if b = 0 then .error Fault.divByZero
  else if T.rep (Int.tdiv a b) then .ok (Int.tdiv a b)
  else .error Fault.overflow

/-- The remainder `a % b` in the type, with the sign of `a`; it is undefined
where `a / b` is. -/
def IntType.rem (T : IntType) (a b : Int) : Res Int :=
  if b = 0 then .error Fault.divByZero
  else if T.rep (Int.tdiv a b) then .ok (Int.tmod a b)
  else .error Fault.overflow

/-- The `IotaIterator<I, J>` of the source at `I = J = T`: `iter` and `jump`
hold values of the type `T`. -/
structure IotaIterator (T : IntType) where
  iter : Int
  jump : Int
deriving DecidableEq

/-- The `operator-( other )` of `IotaIterator`, on `self`: the difference `d`,
the remainder and the quotient are computed in `T`, and the quotient is
converted to `ptrdiff_t`, which is `long`. -/
def IotaIterator.minus (T : IntType) (self other : IotaIterator T) : Res Int := do
  assert (decide (self.jump = other.jump))
  let d := T.wrap (self.iter - other.iter)
  let r ← T.rem d self.jump
  assert (decide (r = 0))
  let q ← T.div d self.jump
  pure (IntType.long.wrap q)

/-- Operations of `IotaIterator`.  `operator++` is `iter += jump` in `T`;
`operator+( c )` and `operator-( c )` take a `size_t`, compute `iter + c * jump`
and `iter - c * jump` in `size_t` and convert the result to `T`. -/
def IotaIterator.cursor (T : IntType) : RandomCursor (IotaIterator T) Int where
  deref i := .ok (i.iter, i)
  inc i := .ok { i with iter := T.wrap (i.iter + i.jump) }
  eq i o := decide (i.iter = o.iter)
  distance first last := IotaIterator.minus T last first
  lt i o := decide (i.iter < o.iter)
  ge i o := decide (i.iter ≥ o.iter)
  add i c := ⟨T.wrap (castSizeT (i.iter + c * i.jump)), i.jump⟩
  sub i c := ⟨T.wrap (castSizeT (i.iter - c * i.jump)), i.jump⟩

/-- The function `iota( start, end, jump )` at the type `T` of its arguments. -/
def iota (T : IntType) (start end_ jump : Int) : GenericRange (IotaIterator T) :=
  ⟨⟨start, jump⟩, ⟨end_, jump⟩⟩

/-- The function `iota( count )`: it is `iota( 0, count, 1 )`, and the literals
`0` and `1` make the type `int`. -/
def iotaCount (count : Int) : GenericRange (IotaIterator IntType.int) :=
  iota IntType.int 0 count 1

/-! ## copyTo -/

/-- The elements of the array `mem` at the offsets `b .. e - 1`. -/
def slice {α : Type} (mem : List α) (b e : Int) : List α :=
  (mem.drop b.toNat).take (e - b).toNat

/-- The elements a range of pointers into `mem` spans. -/
def elems {α : Type} (mem : List α) (r : GenericRange Int) : List α :=
  slice mem r._b r._e

/-- A range of pointers that lies inside the array `mem`, its beginning not
after its end. -/
def InBounds {α : Type} (mem : List α) (r : GenericRange Int) : Prop :=
  0 ≤ r._b ∧ r._b ≤ r._e ∧ (r._e : Int) ≤ mem.length

instance {α : Type} (mem : List α) (r : GenericRange Int) : Decidable (InBounds mem r) := by
  unfold InBounds
  infer_instance

/-- The sub-ranges the iteration of `split` over pointers into `mem` goes
through, from the position `i` up to the end `e`: a segment starts at `i`, ends
at the first position `p` after `i` that is `e` or holds the delimiter, and the
next segment starts after that delimiter. -/
inductive SplitsTo {α : Type} (mem : List α) (d : α) (e : Int) :
    Int → List (GenericRange Int) → Prop where
  | done : SplitsTo mem d e e []
  | last (i : Int) : i < e → d ∉ slice mem (i + 1) e → SplitsTo mem d e i [⟨i, e⟩]
  | cons (i p : Int) (segs : List (GenericRange Int)) : i < p → p < e →
      d ∉ slice mem (i + 1) p → mem[p.toNat]? = some d → SplitsTo mem d e (p + 1) segs →
      SplitsTo mem d e i (⟨i, p⟩ :: segs)

/-- The `m` consecutive tiles of length `k` that start at the position `it`. -/
def tilesFrom (it k : Int) (m : Nat) : List (GenericRange Int) :=
  (List.range m).map (fun i : Nat => ⟨it + i * k, it + i * k + k⟩)

theorem slice_self {α : Type} (mem : List α) (b : Int) : slice mem b b = [] := by
  simp [slice]

theorem slice_of_le {α : Type} (mem : List α) (b e : Int) (h : e ≤ b) : slice mem b e = [] := by
  have : (e - b).toNat = 0 := by omega
  simp [slice, this]

theorem slice_cons {α : Type} (mem : List α) (b e : Int) (h0 : 0 ≤ b) (h1 : b < e)
    (h2 : e ≤ mem.length) :
    ∃ h : b.toNat < mem.length, slice mem b e = mem[b.toNat] :: slice mem (b + 1) e := by
  have hb : b.toNat < mem.length := by omega
  refine ⟨hb, ?_⟩
  have h3 : (e - b).toNat = (e - (b + 1)).toNat + 1 := by omega
  have h4 : (b + 1).toNat = b.toNat + 1 := by omega
  unfold slice
  rw [h3, h4, List.drop_eq_getElem_cons hb, List.take_succ_cons]

theorem slice_length {α : Type} (mem : List α) (b e : Int) (h0 : 0 ≤ b) (h1 : b ≤ e)
    (h2 : e ≤ mem.length) : ((slice mem b e).length : Int) = e - b := by
  simp only [slice, List.length_take, List.length_drop]
  omega

theorem slice_full {α : Type} (mem : List α) : slice mem 0 mem.length = mem := by
  simp [slice]

theorem slice_append {α : Type} (mem : List α) (b m e : Int) (h0 : 0 ≤ b) (h1 : b ≤ m)
    (h2 : m ≤ e) : slice mem b e = slice mem b m ++ slice mem m e := by
  unfold slice
  have h3 : (e - b).toNat = (m - b).toNat + (e - m).toNat := by omega
  have h4 : m.toNat = b.toNat + (m - b).toNat := by omega
  rw [h3, h4, List.take_add, List.drop_drop]

theorem ptr_deref {α : Type} (mem : List α) (p : Int) (h0 : 0 ≤ p) (h : p.toNat < mem.length) :
    (ptr mem).deref p = .ok (mem[p.toNat], p) := by
  simp [ptr, h0, List.getElem?_eq_getElem h]

theorem rangeFor_ptr {α σ : Type} (mem : List α) (body : σ → α → σ) (n : Nat) :
    ∀ (fuel : Nat) (b e : Int) (s : σ), 0 ≤ b → b ≤ e → e ≤ mem.length →
      (e - b).toNat = n → n < fuel →
      rangeFor (ptr mem).toCursor body fuel b e s = .ok ((slice mem b e).foldl body s) := by
  induction n with
  | zero =>
    intro fuel b e s h0 h1 h2 hn hf
    have hbe : b = e := by omega
    subst hbe
    obtain ⟨k, rfl⟩ : ∃ k, fuel = k + 1 := ⟨fuel - 1, by omega⟩
    simp [rangeFor, ptr, slice_self]
  | succ n ih =>
    intro fuel b e s h0 h1 h2 hn hf
    obtain ⟨k, rfl⟩ : ∃ k, fuel = k + 1 := ⟨fuel - 1, by omega⟩
    have hne : b ≠ e := by omega
    obtain ⟨hb, hs⟩ := slice_cons mem b e h0 (by omega) h2
    have hd := ptr_deref mem b h0 hb
    rw [hs]
    simp only [rangeFor]
    have heq : (ptr mem).eq b e = false := by simp [ptr, hne]
    simp only [heq, hd]
    have := ih k (b + 1) e (body s mem[b.toNat]) (by omega) (by omega) h2 (by omega) (by omega)
    simpa [ptr, bind, Except.bind] using this

theorem each_ptr {α : Type} (mem : List α) (fuel : Nat) (r : GenericRange Int)
    (h0 : 0 ≤ r._b) (h1 : r._b ≤ r._e) (h2 : r._e ≤ mem.length)
    (hf : (r._e - r._b).toNat < fuel) :
    each (ptr mem).toCursor fuel r = .ok (elems mem r) := by
  unfold each elems
  rw [rangeFor_ptr mem _ _ fuel r._b r._e [] h0 h1 h2 rfl hf]
  congr 1
  generalize slice mem r._b r._e = xs
  have : ∀ (ys : List α), List.foldl (fun trace e => trace ++ [e]) ys xs = ys ++ xs := by
    induction xs with
    | nil => simp
    | cons x xs ih => intro ys; simp [ih]
  simpa using this []

theorem elems_length {α : Type} (mem : List α) (r : GenericRange Int) (h : InBounds mem r) :
    ((elems mem r).length : Int) = r._e - r._b :=
  slice_length mem r._b r._e h.1 h.2.1 h.2.2

/-- C1, at the failing input: `reduce` over a range of exactly one element.  Its
own assertion `range.size() > 0` holds, yet the call `range.drop()` it makes
asserts `b < e` on the empty rest, and the reduction aborts instead of returning
the element. -/
theorem reduce_single_element_fails {α : Type} (x : α) (fn : α → α → α) (fuel : Nat) :
    reduce (ptr [x]) fn fuel (rangeOf [x]) = .error Fault.assertion := by
  rfl

/-- C6, at the failing inputs: `take` with a count above the size of the range.
Neither assertion of `take` looks at the end of the range, so for every array
and every count `mem.length + 1 + k` the call succeeds and returns a range that
ends past the array. -/
theorem take_beyond_size {α : Type} (mem : List α) (k : Nat) :
    take (ptr mem) (rangeOf mem) (mem.length + 1 + k)
      = .ok ⟨0, (mem.length : Int) + 1 + k⟩ := by
  have h : (0 : Int) < (mem.length : Int) + 1 + k := by omega
  simp [take, rangeOf, ptr, assert, bind, Except.bind, pure, Except.pure, h]

theorem slice_take {α : Type} (mem : List α) (b e : Int) (n : Nat) (h : b + n ≤ e) :
    slice mem b (b + n) = (slice mem b e).take n := by
  unfold slice
  have h3 : (b + (n : Int) - b).toNat = min n (e - b).toNat := by omega
  rw [List.take_take, h3]

theorem scan_ptr {α : Type} [DecidableEq α] (mem : List α) (d : α) (e : Int)
    (he : e ≤ mem.length) (k : Nat) :
    ∀ (fuel : Nat) (pe : Int), 0 ≤ pe → pe < e → (e - pe).toNat = k + 1 → k < fuel →
      ∃ p, SplitIterator.scan (ptr mem).toCursor e d fuel pe = .ok p ∧ pe < p ∧ p ≤ e ∧
        d ∉ slice mem (pe + 1) p ∧ (p < e → mem[p.toNat]? = some d) := by
  induction k with
  | zero =>
    intro fuel pe h0 h1 hk hf
    obtain ⟨f, rfl⟩ : ∃ f, fuel = f + 1 := ⟨fuel - 1, by omega⟩
    have hpe : pe + 1 = e := by omega
    refine ⟨e, ?_, h1, le_refl e, ?_, fun h => absurd h (lt_irrefl e)⟩
    · simp [SplitIterator.scan, ptr, bind, Except.bind, pure, Except.pure, hpe]
    · simp [hpe, slice_self]
  | succ k ih =>
    intro fuel pe h0 h1 hk hf
    obtain ⟨f, rfl⟩ : ∃ f, fuel = f + 1 := ⟨fuel - 1, by omega⟩
    have hne : pe + 1 ≠ e := by omega
    have hb : (pe + 1).toNat < mem.length := by omega
    have hd := ptr_deref mem (pe + 1) (by omega) hb
    have hinc : (ptr mem).inc pe = .ok (pe + 1) := rfl
    have heq : (ptr mem).eq (pe + 1) e = false := by simp [ptr, hne]
    by_cases hv : mem[(pe + 1).toNat] = d
    · refine ⟨pe + 1, ?_, by omega, by omega, by simp [slice_self], fun _ => ?_⟩
      · simp [SplitIterator.scan, hinc, heq, hd, bind, Except.bind, pure, Except.pure, hv]
      · rw [List.getElem?_eq_getElem hb, hv]
    · obtain ⟨p, hp, hlt, hle, hnot, hat⟩ := ih f (pe + 1) (by omega) (by omega) (by omega) (by omega)
      refine ⟨p, ?_, by omega, hle, ?_, hat⟩
      · simp [SplitIterator.scan, hinc, heq, hd, bind, Except.bind, hv, hp]
      · obtain ⟨_, hs⟩ := slice_cons mem (pe + 1) p (by omega) hlt (by omega)
        rw [hs]
        simp only [List.mem_cons, not_or]
        exact ⟨fun h => hv h.symm, hnot⟩

theorem split_deref_ptr {α : Type} [DecidableEq α] (mem : List α) (d : α) (e i p : Int)
    (cf : Nat) (hs : SplitIterator.scan (ptr mem).toCursor e d cf i = .ok p) (hne : i ≠ p) :
    (SplitIterator.cursor (ptr mem).toCursor cf).deref ⟨i, e, d, i⟩
      = .ok (⟨i, p⟩, ⟨i, e, d, p⟩) := by
  simp [SplitIterator.cursor, SplitIterator.reparse_for_end, ptr, bind, Except.bind, pure,
    Except.pure, assert, hne]
  have hs2 : SplitIterator.scan (ptr mem).toCursor e d cf i = .ok p := hs
  simp only [ptr] at hs2
  rw [hs2]
  simp [hne]

theorem split_inc_ptr {α : Type} [DecidableEq α] (mem : List α) (d : α) (e i p : Int)
    (cf : Nat) (hne : i ≠ p) :
    (SplitIterator.cursor (ptr mem).toCursor cf).inc ⟨i, e, d, p⟩
      = .ok ⟨if p = e then e else p + 1, e, d, if p = e then e else p + 1⟩ := by
  have hne2 : ¬ p = i := fun h => hne h.symm
  by_cases hpe : p = e
  · subst hpe
    simp [SplitIterator.cursor, SplitIterator.next, SplitIterator.reparse_for_end, ptr, bind,
      Except.bind, pure, Except.pure, assert, hne, hne2]
  · simp [SplitIterator.cursor, SplitIterator.next, SplitIterator.reparse_for_end, ptr, bind,
      Except.bind, pure, Except.pure, assert, hne, hne2, hpe]

theorem split_rangeFor_ptr {α σ : Type} [DecidableEq α] (mem : List α) (d : α) (e : Int)
    (he : e ≤ mem.length) (cf : Nat) (k : Nat) :
    ∀ (fuel : Nat) (i : Int), 0 ≤ i → i ≤ e → (e - i).toNat < cf → (e - i).toNat ≤ k →
      k < fuel →
      ∃ segs, SplitsTo mem d e i segs ∧ ∀ (body : σ → GenericRange Int → σ) (s : σ),
        rangeFor (SplitIterator.cursor (ptr mem).toCursor cf) body fuel
          ⟨i, e, d, i⟩ ⟨e, e, d, e⟩ s = .ok (segs.foldl body s) := by
  induction k with
  | zero =>
    intro fuel i h0 h1 hcf hk hf
    obtain ⟨f, rfl⟩ : ∃ f, fuel = f + 1 := ⟨fuel - 1, by omega⟩
    have hie : i = e := by omega
    subst hie
    exact ⟨[], SplitsTo.done, fun body s => by simp [rangeFor, SplitIterator.cursor, ptr]⟩
  | succ k ih =>
    intro fuel i h0 h1 hcf hk hf
    obtain ⟨f, rfl⟩ : ∃ f, fuel = f + 1 := ⟨fuel - 1, by omega⟩
    by_cases hie : i = e
    · subst hie
      exact ⟨[], SplitsTo.done, fun body s => by simp [rangeFor, SplitIterator.cursor, ptr]⟩
    · have hlt : i < e := by omega
      obtain ⟨p, hp, hip, hpe, hnot, hat⟩ :=
        scan_ptr mem d e he ((e - i).toNat - 1) cf i h0 hlt (by omega) (by omega)
      have hne : i ≠ p := by omega
      have hd := split_deref_ptr mem d e i p cf hp hne
      have hi := split_inc_ptr mem d e i p cf hne
      have heq : (SplitIterator.cursor (ptr mem).toCursor cf).eq ⟨i, e, d, i⟩ ⟨e, e, d, e⟩
          = false := by simp [SplitIterator.cursor, ptr, hie]
      by_cases hpe2 : p = e
      · subst hpe2
        refine ⟨[⟨i, p⟩], SplitsTo.last i hlt hnot, fun body s => ?_⟩
        simp only [rangeFor, heq, hd, hi, bind, Except.bind, if_true]
        obtain ⟨g, rfl⟩ : ∃ g, f = g + 1 := ⟨f - 1, by omega⟩
        simp [rangeFor, SplitIterator.cursor, ptr]
      · obtain ⟨segs, hsegs, hrun⟩ := ih f (p + 1) (by omega) (by omega) (by omega) (by omega)
          (by omega)
        refine ⟨⟨i, p⟩ :: segs, SplitsTo.cons i p segs hip (by omega) hnot (hat (by omega)) hsegs,
          fun body s => ?_⟩
        simp only [rangeFor, heq, hd, hi, bind, Except.bind, if_neg hpe2]
        simpa using hrun body (body s ⟨i, p⟩)

theorem SplitsTo.nil_of_end {α : Type} {mem : List α} {d : α} {e : Int}
    {segs : List (GenericRange Int)} (h : SplitsTo mem d e e segs) : segs = [] := by
  cases h with
  | done => rfl
  | last _ h1 _ => exact absurd h1 (lt_irrefl e)
  | cons _ p _ h1 h2 _ _ _ => omega

theorem SplitsTo.ne_nil {α : Type} {mem : List α} {d : α} {e i : Int}
    {segs : List (GenericRange Int)} (h : SplitsTo mem d e i segs) (hi : i ≠ e) :
    segs ≠ [] := by
  cases h with
  | done => exact absurd rfl hi
  | last _ _ _ => simp
  | cons _ _ _ _ _ _ _ _ => simp

theorem intercalate_cons_of_ne_nil {α : Type} (sep x : List α) (xs : List (List α))
    (h : xs ≠ []) : List.intercalate sep (x :: xs) = x ++ sep ++ List.intercalate sep xs := by
  cases xs with
  | nil => exact absurd rfl h
  | cons y ys => simp [List.intercalate, List.intersperse]

theorem SplitsTo.join {α : Type} {mem : List α} {d : α} {e i : Int}
    {segs : List (GenericRange Int)} (h : SplitsTo mem d e i segs) (h0 : 0 ≤ i)
    (he : e ≤ mem.length) :
    (List.intercalate [d] (segs.map (elems mem)) = slice mem i e ∨
      List.intercalate [d] (segs.map (elems mem)) ++ [d] = slice mem i e) ∧
    ((i = e ∨ mem[(e - 1).toNat]? ≠ some d) →
      List.intercalate [d] (segs.map (elems mem)) = slice mem i e) := by
  induction h with
  | done => simp [slice_self, List.intercalate]
  | last i h1 _ => simp [List.intercalate, elems]
  | cons i p segs h1 h2 _ hat hrest ih =>
    obtain ⟨ih1, ih2⟩ := ih (by omega)
    have hsplit : slice mem i e = slice mem i p ++ [d] ++ slice mem (p + 1) e := by
      obtain ⟨hb, hs⟩ := slice_cons mem p e (by omega) h2 he
      rw [slice_append mem i p e h0 (by omega) (by omega), hs]
      rw [List.getElem?_eq_getElem hb] at hat
      simp only [Option.some.injEq] at hat
      rw [hat]
      simp
    by_cases hpe : p + 1 = e
    · have hnil : segs = [] := by
        rw [hpe] at hrest
        exact hrest.nil_of_end
      subst hnil
      have hse : slice mem (p + 1) e = [] := by rw [hpe]; exact slice_self mem e
      constructor
      · right
        simp [List.intercalate, elems, hsplit, hse]
      · rintro (h | h)
        · omega
        · exfalso
          apply h
          have : (e - 1) = p := by omega
          rw [this]
          exact hat
    · have hne := hrest.ne_nil hpe
      have hne2 : segs.map (elems mem) ≠ [] := by simpa using hne
      simp only [List.map_cons]
      rw [intercalate_cons_of_ne_nil _ _ _ hne2, hsplit]
      constructor
      · rcases ih1 with h | h
        · left
          rw [h]
          rfl
        · right
          rw [← h]
          simp [elems]
      · rintro (h | h)
        · omega
        · rw [ih2 (Or.inr h)]
          rfl

theorem foldl_snoc {α : Type} (xs ys : List α) :
    List.foldl (fun trace e => trace ++ [e]) ys xs = ys ++ xs := by
  induction xs generalizing ys with
  | nil => simp
  | cons x xs ih => simp [ih]

/-- C2, amended: for every sequence `S` and delimiter `d`, iterating
`split( S, d )` ends, and joining the sub-ranges it yields with one `d` between
consecutive ones gives back `S` or `S` without its final `d`; it gives back `S`
itself whenever `S` is empty or does not end with `d` (so also when `S` has no
`d` or begins with `d`). -/
theorem split_round_trip {α : Type} [DecidableEq α] (S : List α) (d : α) (fuel : Nat)
    (hf : S.length < fuel) :
    ∃ parts, each (SplitIterator.cursor (ptr S).toCursor fuel) fuel (split (rangeOf S) d)
        = .ok parts ∧
      (List.intercalate [d] (parts.map (elems S)) = S ∨
        List.intercalate [d] (parts.map (elems S)) ++ [d] = S) ∧
      (S.getLast? ≠ some d → List.intercalate [d] (parts.map (elems S)) = S) := by
  obtain ⟨segs, hsegs, hrun⟩ := split_rangeFor_ptr (σ := List (GenericRange Int)) S d S.length
    (le_refl _) fuel S.length fuel 0 (le_refl 0) (by omega) (by simpa using hf) (by simp) hf
  obtain ⟨h1, h2⟩ := hsegs.join (le_refl 0) (le_refl _)
  rw [slice_full] at h1 h2
  refine ⟨segs, ?_, h1, fun hl => h2 ?_⟩
  · simp only [each, split, rangeOf]
    rw [hrun, foldl_snoc]
    rfl
  · right
    have : ((S.length : Int) - 1).toNat = S.length - 1 := by omega
    rw [this, ← List.getLast?_eq_getElem?]
    exact hl

/-- The hypothesis of `split_round_trip` holds for `"a,,b"` split at `','` with a
budget of five steps. -/
theorem split_round_trip_witness :
    ['a', ',', ',', 'b'].length < 5 ∧
    ∃ parts, each (SplitIterator.cursor (ptr ['a', ',', ',', 'b']).toCursor 5) 5
        (split (rangeOf ['a', ',', ',', 'b']) ',') = .ok parts ∧
      (List.intercalate [','] (parts.map (elems ['a', ',', ',', 'b'])) = ['a', ',', ',', 'b'] ∨
        List.intercalate [','] (parts.map (elems ['a', ',', ',', 'b'])) ++ [',']
          = ['a', ',', ',', 'b']) ∧
      (['a', ',', ',', 'b'].getLast? ≠ some ',' →
        List.intercalate [','] (parts.map (elems ['a', ',', ',', 'b']))
          = ['a', ',', ',', 'b']) :=
  ⟨by decide, split_round_trip ['a', ',', ',', 'b'] ',' 5 (by decide)⟩

/-- C2 as stated fails: `"a,"` split at `','` yields the single sub-range `"a"`,
and the join of the sub-ranges is `"a"`, not `"a,"`. -/
theorem split_round_trip_counterexample :
    each (SplitIterator.cursor (ptr ['a', ',']).toCursor 3) 3 (split (rangeOf ['a', ',']) ',')
      = .ok [⟨0, 1⟩] ∧
    List.intercalate [','] ([(⟨0, 1⟩ : GenericRange Int)].map (elems ['a', ','])) = ['a'] ∧
    List.intercalate [','] ([(⟨0, 1⟩ : GenericRange Int)].map (elems ['a', ',']))
      ≠ ['a', ','] := by
  decide

/-- C10, at a failing input: `",a"` split at `','` yields one sub-range, the whole
`",a"`, which holds the delimiter; so does `"a,,b"`, whose second sub-range is
`",b"`.  The scan of `reparse_for_end` increments before it compares, so the
first element of a segment is never compared with the delimiter. -/
theorem split_keeps_delimiter (fuel : Nat) :
    each (SplitIterator.cursor (ptr [',', 'a']).toCursor (fuel + 3)) (fuel + 3)
      (split (rangeOf [',', 'a']) ',') = .ok [⟨0, 2⟩] ∧
    ',' ∈ elems [',', 'a'] ⟨0, 2⟩ ∧
    each (SplitIterator.cursor (ptr ['a', ',', ',', 'b']).toCursor (fuel + 5)) (fuel + 5)
      (split (rangeOf ['a', ',', ',', 'b']) ',') = .ok [⟨0, 1⟩, ⟨2, 4⟩] ∧
    ',' ∈ elems ['a', ',', ',', 'b'] ⟨2, 4⟩ :=
  ⟨rfl, by decide, rfl, by decide⟩

/-- C3, at a failing input: the filter `e < 1` over `iota( 3 )`.  After `0` no
element passes; the dereference skips to the end cursor and returns what is
there, so the loop body is also run on `3`, which is no element of the range
and fails the predicate.  Over an array the same read is past the storage. -/
theorem filter_visits_end_value (fuel : Nat) :
    each (FilterIterator.cursor (IotaIterator.cursor IntType.int).toCursor (fuel + 4)) (fuel + 4)
      (filter (fun e => decide (e < 1)) (iotaCount 3)) = .ok [0, 3] ∧
    each (FilterIterator.cursor (ptr [0, 1, 2]).toCursor (fuel + 4)) (fuel + 4)
      (filter (fun e => decide (e < 1)) (rangeOf [0, 1, 2])) = .error Fault.outOfBounds :=
  ⟨rfl, rfl⟩

/-! ## iota -/

theorem wrap_of_rep (T : IntType) (x : Int) (h : T.rep x) : T.wrap x = x := by
  cases T <;> simp only [IntType.rep, IntType.min, IntType.max] at h <;>
    simp only [IntType.wrap, IntType.min, IntType.modulus] <;> omega

theorem wrap_castSizeT (T : IntType) (x : Int) : T.wrap (castSizeT x) = T.wrap x := by
  cases T <;> simp only [IntType.wrap, IntType.min, IntType.modulus, castSizeT] <;> omega

theorem rangeFor_trace {I V σ : Type} (c : Cursor I V) (body : σ → V → σ) (fuel : Nat) :
    ∀ (it last : I) (tr tr' : List V) (s : σ),
      rangeFor c (fun trace e => trace ++ [e]) fuel it last tr = .ok tr' →
      ∃ xs, tr' = tr ++ xs ∧ rangeFor c body fuel it last s = .ok (xs.foldl body s) := by
  induction fuel with
  | zero => intro it last tr tr' s h; simp [rangeFor] at h
  | succ f ih =>
    intro it last tr tr' s h
    simp only [rangeFor] at h ⊢
    by_cases heq : c.eq it last = true
    · simp only [heq, if_true, Except.ok.injEq] at h ⊢
      exact ⟨[], by simp [h], rfl⟩
    · simp only [heq, if_false, Bool.false_eq_true] at h ⊢
      cases hd : c.deref it with
      | error err => simp [hd, bind, Except.bind] at h
      | ok vi =>
        obtain ⟨v, i⟩ := vi
        cases hi : c.inc i with
        | error err => simp [hd, hi, bind, Except.bind] at h
        | ok i2 =>
          simp only [hd, hi, bind, Except.bind] at h ⊢
          obtain ⟨xs, hxs, hrun⟩ := ih i2 last (tr ++ [v]) tr' (body s v) h
          exact ⟨v :: xs, by simp [hxs], by simpa using hrun⟩

theorem rangeFor_iota {σ : Type} (T : IntType) (body : σ → Int → σ) (jump ej : Int)
    (hj : 1 ≤ jump) (n : Nat) :
    ∀ (fuel : Nat) (start : Int) (s : σ), n < fuel → T.rep start → T.rep (start + n * jump) →
      rangeFor (IotaIterator.cursor T).toCursor body fuel ⟨start, jump⟩ ⟨start + n * jump, ej⟩ s
        = .ok (((List.range n).map (fun i : Nat => start + i * jump)).foldl body s) := by
  induction n with
  | zero =>
    intro fuel start s hf _ _
    obtain ⟨f, rfl⟩ : ∃ f, fuel = f + 1 := ⟨fuel - 1, by omega⟩
    simp [rangeFor, IotaIterator.cursor]
  | succ n ih =>
    intro fuel start s hf hs he
    obtain ⟨f, rfl⟩ : ∃ f, fuel = f + 1 := ⟨fuel - 1, by omega⟩
    have hnj : (0 : Int) ≤ (n : Int) * jump := mul_nonneg (by omega) (by omega)
    have hend : start + ((n + 1 : Nat) : Int) * jump = (start + jump) + (n : Int) * jump := by
      push_cast
      ring
    have hne : ¬ start = start + ((n + 1 : Nat) : Int) * jump := by
      rw [hend]
      omega
    have hstep : T.rep (start + jump) := by
      rw [hend] at he
      exact ⟨by have := hs.1; omega, by have := he.2; omega⟩
    have := ih f (start + jump) (body s start) (by omega) hstep (by rw [← hend]; exact he)
    rw [← hend] at this
    simp only [rangeFor, IotaIterator.cursor, hne, decide_False, bind, Except.bind,
      wrap_of_rep T _ hstep]
    simp only [IotaIterator.cursor] at this
    rw [List.range_succ_eq_map, List.map_cons, List.foldl_cons, List.map_map]
    simp only [Bool.false_eq_true, if_false]
    rw [this]
    congr 2
    · simp
    · apply List.map_congr_left
      intro i _
      simp only [Function.comp, Nat.succ_eq_add_one]
      push_cast
      ring

/-- C5 as stated fails: with the stride 3 from 0 to 10, in `int`, the cursor
takes the values 0, 3, 6, 9, 12, 15, ... and steps over the end.  With a budget
of five steps the iteration of `iota( 0, 10, 3 )` has not ended, and every
iteration that ends has called the callback with 0, 3, 6, 9 and 12 first, where
the claim has it end after the four values 0, 3, 6, 9. -/
theorem iota_counterexample :
    each (IotaIterator.cursor IntType.int).toCursor 5 (iota IntType.int 0 10 3)
      = .error Fault.fuel ∧
    ¬ ∃ (fuel : Nat) (xs : List Int),
      each (IotaIterator.cursor IntType.int).toCursor fuel (iota IntType.int 0 10 3) = .ok xs ∧
        ¬ [0, 3, 6, 9, 12] <+: xs := by
  refine ⟨rfl, ?_⟩
  rintro ⟨fuel, xs, h, hp⟩
  rcases Nat.lt_or_ge fuel 5 with hlt | hge
  · have hfail : each (IotaIterator.cursor IntType.int).toCursor fuel (iota IntType.int 0 10 3)
        = .error Fault.fuel := by
      interval_cases fuel <;> rfl
    rw [hfail] at h
    cases h
  · obtain ⟨k, rfl⟩ : ∃ k, fuel = k + 5 := ⟨fuel - 5, by omega⟩
    have h5 : each (IotaIterator.cursor IntType.int).toCursor (k + 5) (iota IntType.int 0 10 3)
        = rangeFor (IotaIterator.cursor IntType.int).toCursor (fun trace e => trace ++ [e]) k
            ⟨15, 3⟩ ⟨10, 3⟩ [0, 3, 6, 9, 12] := rfl
    rw [h5] at h
    obtain ⟨ys, hys, _⟩ := rangeFor_trace _ (fun (u : Unit) _ => u) k _ _ _ _ () h
    exact hp ⟨ys, hys.symm⟩

/-- C5, amended: for values `start ≤ end` of the integer type and a stride
`jump ≥ 1` that divides `end - start`, iterating `iota( start, end, jump )` ends
and yields exactly `( end - start ) / jump` values, which is then
`ceil( ( end - start ) / jump )`. -/
theorem iota_count (T : IntType) (start end_ jump : Int) (fuel : Nat) (hs : T.rep start)
    (he : T.rep end_) (h1 : start ≤ end_) (h2 : 1 ≤ jump)
    (h3 : jump ∣ end_ - start) (hf : (end_ - start) / jump < fuel) :
    ∃ xs, each (IotaIterator.cursor T).toCursor fuel (iota T start end_ jump) = .ok xs ∧
      (xs.length : Int) = (end_ - start) / jump ∧
      (xs.length : Int) = ⌈((end_ - start : Int) : ℚ) / (jump : ℚ)⌉ := by
  obtain ⟨q, hq⟩ := h3
  have hq0 : 0 ≤ q := by
    by_contra hneg
    have : jump * q < 0 := by
      apply mul_neg_of_pos_of_neg <;> omega
    omega
  have hdiv : (end_ - start) / jump = q := by
    rw [hq]
    exact Int.mul_ediv_cancel_left q (by omega)
  have hend : end_ = start + (q.toNat : Int) * jump := by
    rw [Int.toNat_of_nonneg hq0]
    linarith
  have hrun := rangeFor_iota T (fun trace e => trace ++ [e]) jump jump h2 q.toNat fuel
    start [] (by omega) hs (by rw [← hend]; exact he)
  rw [← hend, foldl_snoc, List.nil_append] at hrun
  refine ⟨(List.range q.toNat).map (fun i : Nat => start + i * jump), hrun, ?_, ?_⟩
  · simp [hdiv, Int.toNat_of_nonneg hq0]
  · simp only [List.length_map, List.length_range, Int.toNat_of_nonneg hq0]
    rw [hq]
    have hj : (jump : ℚ) ≠ 0 := by
      have : jump ≠ 0 := by omega
      exact_mod_cast this
    push_cast
    rw [mul_div_cancel_left₀ _ hj]
    simp

/-- The hypotheses of `iota_count` hold for `iota( 0, 10, 2 )` in `int` with a
budget of six steps. -/
theorem iota_count_witness :
    (IntType.int.rep 0 ∧ IntType.int.rep 10 ∧ (0 : Int) ≤ 10 ∧ (1 : Int) ≤ 2 ∧
      (2 : Int) ∣ 10 - 0 ∧ ((10 : Int) - 0) / 2 < (6 : Nat)) ∧
    ∃ xs, each (IotaIterator.cursor IntType.int).toCursor 6 (iota IntType.int 0 10 2) = .ok xs ∧
      (xs.length : Int) = (10 - 0) / 2 ∧
      (xs.length : Int) = ⌈(((10 : Int) - 0 : Int) : ℚ) / ((2 : Int) : ℚ)⌉ :=
  ⟨by decide, iota_count IntType.int 0 10 2 6 (by decide) (by decide) (by decide) (by decide)
    (by decide) (by decide)⟩

/-! ## tile -/

theorem rangeFor_tiling {α σ : Type} (mem : List α) (cf : Nat)
    (body : σ → GenericRange Int → σ) (k x : Int) (hk : 1 ≤ k) (m : Nat) :
    ∀ (fuel : Nat) (it : Int) (s : σ), m < fuel →
      rangeFor (TilingIterator.cursor (ptr mem) cf) body fuel ⟨it, it + k⟩ ⟨it + m * k, x⟩ s
        = .ok ((tilesFrom it k m).foldl body s) := by
  induction m with
  | zero =>
    intro fuel it s hf
    obtain ⟨f, rfl⟩ : ∃ f, fuel = f + 1 := ⟨fuel - 1, by omega⟩
    simp [rangeFor, TilingIterator.cursor, ptr, tilesFrom]
  | succ m ih =>
    intro fuel it s hf
    obtain ⟨f, rfl⟩ : ∃ f, fuel = f + 1 := ⟨fuel - 1, by omega⟩
    have hpos : 0 < ((m + 1 : Nat) : Int) * k := by positivity
    have hne : ¬ it = it + ((m + 1 : Nat) : Int) * k := by omega
    have hend : it + ((m + 1 : Nat) : Int) * k = (it + k) + (m : Int) * k := by
      push_cast
      ring
    have := ih f (it + k) (body s ⟨it, it + k⟩) (by omega)
    rw [← hend] at this
    have heq : (TilingIterator.cursor (ptr mem) cf).eq ⟨it, it + k⟩
        ⟨it + ((m + 1 : Nat) : Int) * k, x⟩ = false :=
      decide_eq_false hne
    have hd : (TilingIterator.cursor (ptr mem) cf).deref ⟨it, it + k⟩
        = .ok (⟨it, it + k⟩, ⟨it, it + k⟩) := rfl
    have hi : (TilingIterator.cursor (ptr mem) cf).inc ⟨it, it + k⟩
        = .ok ⟨it + k, it + k + k⟩ := by
      simp [TilingIterator.cursor, TilingIterator.next, ptr, bind, Except.bind, pure,
        Except.pure]
    simp only [rangeFor, heq, hd, hi, bind, Except.bind, Bool.false_eq_true, if_false]
    rw [this]
    congr 1
    simp only [tilesFrom]
    rw [List.range_succ_eq_map, List.map_cons, List.foldl_cons, List.map_map]
    have h0 : (⟨it + ((0 : Nat) : Int) * k, it + ((0 : Nat) : Int) * k + k⟩ : GenericRange Int)
        = ⟨it, it + k⟩ := by simp
    have hf2 : ((fun i : Nat => (⟨it + i * k, it + i * k + k⟩ : GenericRange Int)) ∘ Nat.succ)
        = (fun i : Nat => ⟨it + k + i * k, it + k + i * k + k⟩) := by
      funext i
      simp only [Function.comp, Nat.succ_eq_add_one]
      push_cast
      congr 1 <;> ring
    rw [h0, hf2]

theorem tilesFrom_length (it k : Int) (m : Nat) : (tilesFrom it k m).length = m := by
  simp [tilesFrom]

theorem tilesFrom_elems_length {α : Type} (mem : List α) (it k : Int) (m : Nat) (h0 : 0 ≤ it)
    (hk : 0 ≤ k) (he : it + m * k ≤ mem.length) :
    ∀ t ∈ tilesFrom it k m, ((elems mem t).length : Int) = k := by
  intro t ht
  simp only [tilesFrom, List.mem_map, List.mem_range] at ht
  obtain ⟨i, hi, rfl⟩ := ht
  have h1 : (i : Int) * k + k ≤ m * k := by
    have : (i : Int) + 1 ≤ m := by omega
    calc (i : Int) * k + k = (i + 1) * k := by ring
      _ ≤ m * k := mul_le_mul_of_nonneg_right this hk
  have h2 : 0 ≤ (i : Int) * k := by positivity
  rw [elems, slice_length mem _ _ (by simp; omega) (by simp; omega) (by simp; omega)]
  simp

theorem tilesFrom_flatten {α : Type} (mem : List α) (it k : Int) (m : Nat) (h0 : 0 ≤ it)
    (hk : 0 ≤ k) :
    ((tilesFrom it k m).map (elems mem)).flatten = slice mem it (it + m * k) := by
  induction m with
  | zero => simp [tilesFrom, slice_self]
  | succ m ih =>
    have h2 : 0 ≤ (m : Int) * k := by positivity
    have hstep : tilesFrom it k (m + 1) = tilesFrom it k m ++ [⟨it + m * k, it + m * k + k⟩] := by
      simp [tilesFrom, List.range_succ]
    rw [hstep, List.map_append, List.flatten_append, ih]
    have hend : it + ((m + 1 : Nat) : Int) * k = it + m * k + k := by
      push_cast
      ring
    rw [hend, slice_append mem it (it + m * k) (it + m * k + k) h0 (by omega) (by omega)]
    simp [elems]

theorem castInt_of_small (x : Int) (h0 : 0 ≤ x) (h1 : x < 2147483648) : castInt x = x := by
  unfold castInt
  omega

theorem castSizeT_of_small (x : Int) (h0 : 0 ≤ x) (h1 : x < 2147483648) : castSizeT x = x := by
  unfold castSizeT
  omega

theorem tile_ptr {α : Type} (mem : List α) (r : GenericRange Int) (k N : Nat)
    (hN : r._e - r._b = N) (hk : 1 ≤ k) (hkN : k ≤ N) (hsz : N < 2147483648) :
    tile (ptr mem) r k
      = .ok ⟨⟨r._b, r._b + k⟩, ⟨r._b + ((N / k : Nat) : Int) * k, r._e⟩⟩ := by
  have hmod : (N : Int) % (k : Int) = ((N % k : Nat) : Int) := by norm_cast
  have hdm : (k : Int) * ((N / k : Nat) : Int) + ((N % k : Nat) : Int) = N := by
    exact_mod_cast Nat.div_add_mod N k
  have hr : N % k < k := Nat.mod_lt N (by omega)
  have hrN : N % k ≤ N := Nat.mod_le N k
  have hq : 1 ≤ N / k := (Nat.one_le_div_iff (by omega)).mpr hkN
  have hqk : (1 : Int) ≤ ((N / k : Nat) : Int) * k := by
    have : 1 * 1 ≤ (N / k) * k := Nat.mul_le_mul hq hk
    exact_mod_cast this
  have hel : castInt (castSizeT (castSizeT (castInt (N : Int))
      - castSizeT (castInt (N : Int)) % (k : Int))) = ((N / k : Nat) : Int) * k := by
    rw [castInt_of_small N (by omega) (by omega), castSizeT_of_small N (by omega) (by omega),
      hmod, castSizeT_of_small _ (by omega) (by omega), castInt_of_small _ (by omega) (by omega)]
    linarith
  have hk0 : k ≠ 0 := by omega
  have hdist : (ptr mem).distance r._b r._e = .ok (N : Int) := by
    simp [ptr, hN]
  have hpos : (0 : Int) < ((N / k : Nat) : Int) * k := by omega
  unfold tile GenericRange.size
  rw [hdist]
  show (if k = 0 then (.error Fault.divByZero : Res (GenericRange (TilingIterator Int)))
    else do
      assert (decide (castInt (castSizeT (castSizeT (castInt (N : Int))
        - castSizeT (castInt (N : Int)) % (k : Int))) > 0))
      pure ⟨⟨r._b, (ptr mem).add r._b k⟩, ⟨(ptr mem).add r._b
        (castInt (castSizeT (castSizeT (castInt (N : Int))
        - castSizeT (castInt (N : Int)) % (k : Int)))), r._e⟩⟩) = _
  rw [if_neg hk0, hel, decide_eq_true hpos]
  rfl

theorem tile_ptr_spec {α : Type} (mem : List α) (r : GenericRange Int) (k fuel : Nat)
    (h : InBounds mem r) (hk : 1 ≤ k) (hks : k ≤ (elems mem r).length)
    (hsz : (elems mem r).length < 2147483648) (hf : (elems mem r).length / k < fuel) :
    ∃ T tiles, tile (ptr mem) r k = .ok T ∧
      each (TilingIterator.cursor (ptr mem) fuel) fuel T = .ok tiles ∧
      tiles.length = (elems mem r).length / k ∧
      (∀ t ∈ tiles, (elems mem t).length = k) ∧
      (tiles.map (elems mem)).flatten
        = (elems mem r).take (k * ((elems mem r).length / k)) ∧
      tiles.length * k ≤ (elems mem r).length ∧
      (elems mem r).length < tiles.length * k + k := by
  have hl := elems_length mem r h
  obtain ⟨h0, h1, h2⟩ := h
  generalize hN : (elems mem r).length = N at *
  have hmk : N / k * k ≤ N := Nat.div_mul_le_self N k
  have hmk2 : (((N / k : Nat) : Int)) * (k : Int) ≤ N := by exact_mod_cast hmk
  refine ⟨_, tilesFrom r._b k (N / k), tile_ptr mem r k N hl.symm hk hks hsz, ?_,
    tilesFrom_length _ _ _, ?_, ?_, ?_, ?_⟩
  · simp only [each]
    rw [rangeFor_tiling mem fuel _ k r._e (by omega) (N / k) fuel r._b [] hf, foldl_snoc]
    rfl
  · intro t ht
    have := tilesFrom_elems_length mem r._b k (N / k) h0 (by omega) (by omega) t ht
    exact_mod_cast this
  · rw [tilesFrom_flatten mem r._b k (N / k) h0 (by omega)]
    have hc : ((N / k : Nat) : Int) * (k : Int) = ((k * (N / k) : Nat) : Int) := by
      push_cast
      ring
    rw [hc]
    exact slice_take mem r._b r._e _ (by omega)
  · rw [tilesFrom_length]
    exact hmk
  · rw [tilesFrom_length]
    exact Nat.lt_div_mul_add (by omega)

theorem tile_iota_example :
    (∃ T, tile (IotaIterator.cursor IntType.int) (iotaCount 18) 4 = .ok T ∧
      each (TilingIterator.cursor (IotaIterator.cursor IntType.int) 5) 5 T
        = .ok [iota IntType.int 0 4 1, iota IntType.int 4 8 1, iota IntType.int 8 12 1,
          iota IntType.int 12 16 1]) ∧
    each (IotaIterator.cursor IntType.int).toCursor 5 (iota IntType.int 0 4 1)
      = .ok [0, 1, 2, 3] ∧
    each (IotaIterator.cursor IntType.int).toCursor 5 (iota IntType.int 4 8 1)
      = .ok [4, 5, 6, 7] ∧
    each (IotaIterator.cursor IntType.int).toCursor 5 (iota IntType.int 8 12 1)
      = .ok [8, 9, 10, 11] ∧
    each (IotaIterator.cursor IntType.int).toCursor 5 (iota IntType.int 12 16 1)
      = .ok [12, 13, 14, 15] :=
  ⟨⟨_, rfl, rfl⟩, rfl, rfl, rfl, rfl⟩

/-- C4, amended: for every range `S` of pointers and tile length `k` with
`1 ≤ k ≤ size( S ) < 2^31`, `tile( S, k )` succeeds and its iteration yields
exactly `size( S ) / k` tiles, each of `k` elements, whose concatenation is the
first `k * ( size( S ) / k )` elements of `S`, so that
`numTiles * k ≤ size( S ) < numTiles * k + k`; and `iota( 18 ).tile( 4 )` yields
the tiles 0..3, 4..7, 8..11, 12..15. -/
theorem tile_spec {α : Type} (mem : List α) (r : GenericRange Int) (k fuel : Nat)
    (h : InBounds mem r) (hk : 1 ≤ k) (hks : k ≤ (elems mem r).length)
    (hsz : (elems mem r).length < 2147483648) (hf : (elems mem r).length / k < fuel) :
    (∃ T tiles, tile (ptr mem) r k = .ok T ∧
      each (TilingIterator.cursor (ptr mem) fuel) fuel T = .ok tiles ∧
      tiles.length = (elems mem r).length / k ∧
      (∀ t ∈ tiles, (elems mem t).length = k) ∧
      (tiles.map (elems mem)).flatten
        = (elems mem r).take (k * ((elems mem r).length / k)) ∧
      tiles.length * k ≤ (elems mem r).length ∧
      (elems mem r).length < tiles.length * k + k) ∧
    (∃ T, tile (IotaIterator.cursor IntType.int) (iotaCount 18) 4 = .ok T ∧
      each (TilingIterator.cursor (IotaIterator.cursor IntType.int) 5) 5 T
        = .ok [iota IntType.int 0 4 1, iota IntType.int 4 8 1, iota IntType.int 8 12 1,
          iota IntType.int 12 16 1]) ∧
    each (IotaIterator.cursor IntType.int).toCursor 5 (iota IntType.int 0 4 1)
      = .ok [0, 1, 2, 3] ∧
    each (IotaIterator.cursor IntType.int).toCursor 5 (iota IntType.int 4 8 1)
      = .ok [4, 5, 6, 7] ∧
    each (IotaIterator.cursor IntType.int).toCursor 5 (iota IntType.int 8 12 1)
      = .ok [8, 9, 10, 11] ∧
    each (IotaIterator.cursor IntType.int).toCursor 5 (iota IntType.int 12 16 1)
      = .ok [12, 13, 14, 15] :=
  ⟨tile_ptr_spec mem r k fuel h hk hks hsz hf, tile_iota_example⟩

/-- C4 as stated fails: `iota( 0, 4294967296 )`, in `long`, has 4294967296
elements and `tile` narrows that size to the `int` 0, so that with `k = 4` the
assertion `el > 0` fails, where the claim has 1073741824 tiles. -/
theorem tile_counterexample :
    (iota IntType.long 0 4294967296 1).size (IotaIterator.cursor IntType.long).toCursor
      = .ok 4294967296 ∧
    tile (IotaIterator.cursor IntType.long) (iota IntType.long 0 4294967296 1) 4 = .error Fault.assertion := by
  decide

/-- The hypotheses of `tile_spec` hold for an array of six elements tiled by
four with a budget of two steps. -/
theorem tile_spec_witness :
    (InBounds [10, 20, 30, 40, 50, 60] (rangeOf [10, 20, 30, 40, 50, 60]) ∧ 1 ≤ 4 ∧
      4 ≤ (elems [10, 20, 30, 40, 50, 60] (rangeOf [10, 20, 30, 40, 50, 60])).length) ∧
    ∃ T tiles, tile (ptr [10, 20, 30, 40, 50, 60]) (rangeOf [10, 20, 30, 40, 50, 60]) 4 = .ok T ∧
      each (TilingIterator.cursor (ptr [10, 20, 30, 40, 50, 60]) 2) 2 T = .ok tiles ∧
      tiles.length = (elems [10, 20, 30, 40, 50, 60] (rangeOf [10, 20, 30, 40, 50, 60])).length / 4 ∧
      (∀ t ∈ tiles, (elems [10, 20, 30, 40, 50, 60] t).length = 4) ∧
      (tiles.map (elems [10, 20, 30, 40, 50, 60])).flatten
        = (elems [10, 20, 30, 40, 50, 60] (rangeOf [10, 20, 30, 40, 50, 60])).take
          (4 * ((elems [10, 20, 30, 40, 50, 60] (rangeOf [10, 20, 30, 40, 50, 60])).length / 4)) ∧
      tiles.length * 4 ≤ (elems [10, 20, 30, 40, 50, 60] (rangeOf [10, 20, 30, 40, 50, 60])).length ∧
      (elems [10, 20, 30, 40, 50, 60] (rangeOf [10, 20, 30, 40, 50, 60])).length
        < tiles.length * 4 + 4 :=
  ⟨by decide, (tile_spec [10, 20, 30, 40, 50, 60] (rangeOf [10, 20, 30, 40, 50, 60]) 4 2
    (by decide) (by decide) (by decide) (by decide) (by decide)).1⟩

/-! ## copyTo -/

theorem slice_getElem? {α : Type} (mem : List α) (b e : Int) (j : Nat) (h0 : 0 ≤ b)
    (hj : b + j < e) : (slice mem b e)[j]? = mem[(b + j).toNat]? := by
  have h1 : j < (e - b).toNat := by omega
  have h2 : (b + (j : Int)).toNat = b.toNat + j := by omega
  simp only [slice]
  rw [List.getElem?_take_of_lt h1, List.getElem?_drop, h2]

theorem fold_of_each {I V : Type} (c : Cursor I V) (fn : V → V → V) (acc : V) (fuel : Nat)
    (r : GenericRange I) (xs : List V) (h : each c fuel r = .ok xs) :
    fold c fn acc fuel r = .ok (xs.foldl fn acc) := by
  obtain ⟨ys, hys, hrun⟩ := rangeFor_trace c (fun acc i => fn acc i) fuel r._b r._e [] xs acc h
  simp only [List.nil_append] at hys
  subst hys
  exact hrun

/-- C15: over a range of pointers whose elements are `x1, ..., xn`, `n ≥ 0`,
`fold( f, s, S )` ends and returns `f( ... f( f( s, x1 ), x2 ) ..., xn )`, the
left fold of `f` in cursor order, and `s` itself for the empty range; and for a
range over any cursor, whenever its iteration visits the values `xs`, `fold` is
the left fold of `f` over `xs` from the seed. -/
theorem fold_spec {α : Type} (mem : List α) (r : GenericRange Int) (fn : α → α → α) (s : α)
    (fuel : Nat) (h : InBounds mem r) (hf : (elems mem r).length < fuel) :
    fold (ptr mem).toCursor fn s fuel r = .ok ((elems mem r).foldl fn s) ∧
    (elems mem r = [] → fold (ptr mem).toCursor fn s fuel r = .ok s) ∧
    (∀ (I : Type) (c : Cursor I α) (v : GenericRange I) (xs : List α),
      each c fuel v = .ok xs → fold c fn s fuel v = .ok (xs.foldl fn s)) := by
  have hl := elems_length mem r h
  have he := each_ptr mem fuel r h.1 h.2.1 h.2.2 (by omega)
  have hfold := fold_of_each _ fn s fuel r _ he
  refine ⟨hfold, fun hnil => ?_, fun I c v xs hx => fold_of_each c fn s fuel v xs hx⟩
  rw [hfold, hnil]
  rfl

/-- C17 as stated fails, the arithmetic being that of the integer type.  In
`unsigned` the difference `0 - 4294967294` is 2, so the size of
`iota( 4294967294, 0, 1 )` is 2 and not `( 0 - 4294967294 ) / 1`; the difference
`0 - 1` is 4294967295, a multiple of 3, so the distance of the cursors at 0 and 1
with stride 3 is 1431655765 and no assertion failure, although 3 does not divide
`0 - 1`; and in `int` the quotient of `-2147483648` by the stride `-1` is no
`int`: the division traps, where the claim has the distance 2147483648. -/
theorem iota_minus_counterexample :
    (iota IntType.unsigned 4294967294 0 1).size (IotaIterator.cursor IntType.unsigned).toCursor
      = .ok 2 ∧
    (((0 : Int) - 4294967294) / 1 ≠ 2 ∧ (1 : Int) ∣ 0 - 4294967294) ∧
    IotaIterator.minus IntType.unsigned ⟨0, 3⟩ ⟨1, 3⟩ = .ok 1431655765 ∧
    ¬ (3 : Int) ∣ 0 - 1 ∧
    IotaIterator.minus IntType.int ⟨-2147483648, -1⟩ ⟨0, -1⟩ = .error Fault.overflow ∧
    (-1 : Int) ∣ -2147483648 - 0 := by
  decide

/-- C17, amended: for Iota cursors `a` and `b` of an integer type `T`, the
stride of `a` not zero, such that `a.iter - b.iter` is a value of `T` and its
quotient by the stride a value of `T` and of `ptrdiff_t`, the distance `a - b`
is an assertion failure exactly when the strides differ or `a.iter - b.iter` is
no multiple of the stride; otherwise it is `( a.iter - b.iter ) / stride`, so
that the size of `iota( b.iter, a.iter, stride )` is that quotient whenever the
stride divides `a.iter - b.iter`. -/
theorem iota_minus_spec (T : IntType) (a b : IotaIterator T) (ha : a.jump ≠ 0)
    (hd : T.rep (a.iter - b.iter)) (hq : T.rep (Int.tdiv (a.iter - b.iter) a.jump))
    (hp : IntType.long.rep (Int.tdiv (a.iter - b.iter) a.jump)) :
    (IotaIterator.minus T a b = .error Fault.assertion ↔
      (a.jump ≠ b.jump ∨ ¬ a.jump ∣ a.iter - b.iter)) ∧
    (a.jump = b.jump → a.jump ∣ a.iter - b.iter →
      IotaIterator.minus T a b = .ok ((a.iter - b.iter) / a.jump)) ∧
    (a.jump ∣ a.iter - b.iter →
      (iota T b.iter a.iter a.jump).size (IotaIterator.cursor T).toCursor
        = .ok ((a.iter - b.iter) / a.jump)) := by
  obtain ⟨xi, xj⟩ := a
  obtain ⟨yi, yj⟩ := b
  simp only at ha hd hq hp ⊢
  have key : ∀ zj : Int, xj = zj → xj ∣ xi - yi →
      IotaIterator.minus T ⟨xi, xj⟩ ⟨yi, zj⟩ = .ok ((xi - yi) / xj) := by
    intro zj hj hdvd
    subst hj
    have hm : Int.tmod (xi - yi) xj = 0 := Int.tmod_eq_zero_of_dvd hdvd
    have hw : IntType.long.wrap (Int.tdiv (xi - yi) xj) = (xi - yi) / xj := by
      rw [wrap_of_rep _ _ hp, Int.tdiv_eq_ediv_of_dvd hdvd]
    simp [IotaIterator.minus, IntType.rem, IntType.div, assert, wrap_of_rep T _ hd, ha, hq, hm,
      hw, bind, Except.bind, pure, Except.pure]
  refine ⟨⟨fun h => ?_, fun h => ?_⟩, key yj, fun hdvd => key xj rfl hdvd⟩
  · by_contra hc
    push_neg at hc
    rw [key yj hc.1 hc.2] at h
    cases h
  · by_cases hj : xj = yj
    · rcases h with h | h
      · exact absurd hj h
      · subst hj
        have hm : ¬ Int.tmod (xi - yi) xj = 0 :=
          fun hm => h (Int.dvd_of_tmod_eq_zero hm)
        simp [IotaIterator.minus, IntType.rem, assert, wrap_of_rep T _ hd, ha, hq, hm, bind,
          Except.bind]
    · simp [IotaIterator.minus, assert, hj, bind, Except.bind]

/-- The hypotheses of `iota_minus_spec` hold for the `int` cursors at 10 and 0
with stride 2. -/
theorem iota_minus_spec_witness :
    ((2 : Int) ≠ 0 ∧ IntType.int.rep (10 - 0) ∧ IntType.int.rep (Int.tdiv (10 - 0) 2) ∧
      IntType.long.rep (Int.tdiv (10 - 0) 2)) ∧
    (IotaIterator.minus IntType.int ⟨10, 2⟩ ⟨0, 2⟩ = .error Fault.assertion ↔
      ((2 : Int) ≠ 2 ∨ ¬ (2 : Int) ∣ 10 - 0)) ∧
    ((2 : Int) = 2 → (2 : Int) ∣ 10 - 0 →
      IotaIterator.minus IntType.int ⟨10, 2⟩ ⟨0, 2⟩ = .ok ((10 - 0) / 2)) ∧
    ((2 : Int) ∣ 10 - 0 →
      (iota IntType.int 0 10 2).size (IotaIterator.cursor IntType.int).toCursor
        = .ok ((10 - 0) / 2)) :=
  ⟨by decide, iota_minus_spec IntType.int ⟨10, 2⟩ ⟨0, 2⟩ (by decide) (by decide) (by decide)
    (by decide)⟩

/-- C19: for every value `start` of the integer type, stride `jump ≥ 1` and
`n ≥ 0`, the end `start + n * jump` being a value of the type, iterating
`iota( start, start + n * jump, jump )` yields exactly the `n` values `start`,
`start + jump`, ..., `start + ( n - 1 ) * jump` in that order, and `iota( n )`,
for an `int` `n`, yields `0, 1, ..., n - 1`. -/
theorem iota_values (T : IntType) (start jump : Int) (n fuel : Nat) (hj : 1 ≤ jump)
    (hs : T.rep start) (he : T.rep (start + n * jump)) (hf : n < fuel) :
    each (IotaIterator.cursor T).toCursor fuel (iota T start (start + n * jump) jump)
      = .ok ((List.range n).map (fun i : Nat => start + i * jump)) ∧
    (IntType.int.rep n →
      each (IotaIterator.cursor IntType.int).toCursor fuel (iotaCount n)
        = .ok ((List.range n).map (fun i : Nat => (i : Int)))) := by
  constructor
  · have h := rangeFor_iota T (fun trace e => trace ++ [e]) jump jump hj n fuel start [] hf hs he
    rw [foldl_snoc, List.nil_append] at h
    exact h
  · intro hn
    have h := rangeFor_iota IntType.int (fun trace e => trace ++ [e]) 1 1 (by omega) n fuel 0 []
      hf (by decide) (by simpa using hn)
    rw [foldl_snoc, List.nil_append] at h
    simp only [mul_one, zero_add] at h
    exact h

/-- C20: `reduce` over an empty range, of any cursor type, is an assertion
failure, for every function and every step budget: the assertion on the size
comes before any dereference and before the loop that calls the function (were
an element read first, a cursor that cannot be dereferenced would give another
fault). -/
theorem reduce_empty {I V : Type} (c : RandomCursor I V) (fn : V → V → V) (fuel : Nat)
    (r : GenericRange I) (h : r.size c.toCursor = .ok 0) :
    reduce c fn fuel r = .error Fault.assertion := by
  simp [reduce, h, assert, bind, Except.bind]

/-- The hypothesis of `reduce_empty` holds for the range over an array without
elements, where no element could be read. -/
theorem reduce_empty_witness :
    (rangeOf ([] : List Int)).size (ptr ([] : List Int)).toCursor = .ok 0 ∧
    reduce (ptr ([] : List Int)) (fun a b => a + b) 0 (rangeOf ([] : List Int))
      = .error Fault.assertion :=
  ⟨rfl, reduce_empty (ptr ([] : List Int)) (fun a b => a + b) 0 (rangeOf ([] : List Int)) rfl⟩

/-- The hypotheses of `fold_spec` hold for the array `1, 2, 3`, addition, the
seed 10 and a budget of four steps. -/
theorem fold_spec_witness :
    fold (ptr [1, 2, 3]).toCursor (fun a b : Int => a + b) 10 4 (rangeOf [1, 2, 3])
      = .ok ((elems [1, 2, 3] (rangeOf [1, 2, 3])).foldl (fun a b : Int => a + b) 10) ∧
    (elems ([1, 2, 3] : List Int) (rangeOf [1, 2, 3]) = [] →
      fold (ptr [1, 2, 3]).toCursor (fun a b : Int => a + b) 10 4 (rangeOf [1, 2, 3])
        = .ok 10) ∧
    (∀ (I : Type) (c : Cursor I Int) (v : GenericRange I) (xs : List Int),
      each c 4 v = .ok xs →
      fold c (fun a b : Int => a + b) 10 4 v = .ok (xs.foldl (fun a b : Int => a + b) 10)) :=
  fold_spec [1, 2, 3] (rangeOf [1, 2, 3]) (fun a b : Int => a + b) 10 4 (by decide) (by decide)

/-- The hypotheses of `iota_values` hold for `start = 5`, `jump = 3`, `n = 4` in
`int` and a budget of five steps. -/
theorem iota_values_witness :
    ((1 : Int) ≤ 3 ∧ IntType.int.rep 5 ∧ IntType.int.rep (5 + (4 : Nat) * 3) ∧ 4 < 5) ∧
    each (IotaIterator.cursor IntType.int).toCursor 5 (iota IntType.int 5 (5 + (4 : Nat) * 3) 3)
      = .ok ((List.range 4).map (fun i : Nat => (5 : Int) + i * 3)) ∧
    (IntType.int.rep (4 : Nat) →
      each (IotaIterator.cursor IntType.int).toCursor 5 (iotaCount (4 : Nat))
        = .ok ((List.range 4).map (fun i : Nat => (i : Int)))) :=
  ⟨by decide, iota_values IntType.int 5 3 4 5 (by decide) (by decide) (by decide) (by decide)⟩

/-! ## tile and filter at their boundaries -/

theorem tile_ptr_small {α : Type} (mem : List α) (r : GenericRange Int) (k N : Nat)
    (hN : r._e - r._b = N) (hkN : N < k) (hsz : N < 2147483648) :
    tile (ptr mem) r k = .error Fault.assertion := by
  have hmod : (N : Int) % (k : Int) = N := Int.emod_eq_of_lt (by omega) (by omega)
  have hel : castInt (castSizeT (castSizeT (castInt (N : Int))
      - castSizeT (castInt (N : Int)) % (k : Int))) = 0 := by
    rw [castInt_of_small N (by omega) (by omega), castSizeT_of_small N (by omega) (by omega),
      hmod, sub_self]
    rfl
  have hk0 : k ≠ 0 := by omega
  have hdist : (ptr mem).distance r._b r._e = .ok (N : Int) := by
    simp [ptr, hN]
  unfold tile GenericRange.size
  rw [hdist]
  show (if k = 0 then (.error Fault.divByZero : Res (GenericRange (TilingIterator Int)))
    else do
      assert (decide (castInt (castSizeT (castSizeT (castInt (N : Int))
        - castSizeT (castInt (N : Int)) % (k : Int))) > 0))
      pure ⟨⟨r._b, (ptr mem).add r._b k⟩, ⟨(ptr mem).add r._b
        (castInt (castSizeT (castSizeT (castInt (N : Int))
        - castSizeT (castInt (N : Int)) % (k : Int)))), r._e⟩⟩) = _
  rw [if_neg hk0, hel]
  rfl

/-- C16, amended: for every range `S` of pointers with `size( S ) < 2^31` and
every tile length `k ≥ 1`, `tile( S, k )` is an assertion failure exactly when
`size( S ) < k`, and succeeds when `k ≤ size( S )`. -/
theorem tile_fatal_iff {α : Type} (mem : List α) (r : GenericRange Int) (k : Nat)
    (h : InBounds mem r) (hk : 1 ≤ k) (hsz : (elems mem r).length < 2147483648) :
    (tile (ptr mem) r k = .error Fault.assertion ↔ (elems mem r).length < k) ∧
    (k ≤ (elems mem r).length → ∃ T, tile (ptr mem) r k = .ok T) := by
  have hl := elems_length mem r h
  refine ⟨⟨fun hf => ?_, fun hlt => tile_ptr_small mem r k _ hl.symm hlt hsz⟩,
    fun hle => ⟨_, tile_ptr mem r k _ hl.symm hk hle hsz⟩⟩
  by_contra hc
  rw [tile_ptr mem r k _ hl.symm hk (by omega) hsz] at hf
  cases hf

/-- C16 as stated fails: `iota( 0, 8589934592 )`, in `long`, has 8589934592
elements, two fit in a tile of length 2, yet `tile` narrows the size to the
`int` 0 and its assertion `el > 0` fails. -/
theorem tile_fatal_counterexample :
    (iota IntType.long 0 8589934592 1).size (IotaIterator.cursor IntType.long).toCursor
      = .ok 8589934592 ∧
    tile (IotaIterator.cursor IntType.long) (iota IntType.long 0 8589934592 1) 2 = .error Fault.assertion := by
  decide

/-- C18, at a failing input: the filter `e > 5` over `iota( 3 )`, which no
element passes.  The first dereference skips to the end cursor and returns what
is there: the callback is called once, with 3; over the array `0, 1, 2` the same
dereference reads past the storage. -/
theorem filter_no_match (fuel : Nat) :
    each (FilterIterator.cursor (IotaIterator.cursor IntType.int).toCursor (fuel + 4)) (fuel + 4)
      (filter (fun e => decide (e > 5)) (iotaCount 3)) = .ok [3] ∧
    each (FilterIterator.cursor (ptr [0, 1, 2]).toCursor (fuel + 4)) (fuel + 4)
      (filter (fun e => decide (e > 5)) (rangeOf [0, 1, 2])) = .error Fault.outOfBounds :=
  ⟨rfl, rfl⟩

/-- The hypotheses of `tile_fatal_iff` hold for an array of three elements and
the tile length 4. -/
theorem tile_fatal_iff_witness :
    (tile (ptr [10, 20, 30]) (rangeOf [10, 20, 30]) 4 = .error Fault.assertion ↔
      (elems [10, 20, 30] (rangeOf [10, 20, 30])).length < 4) ∧
    (4 ≤ (elems [10, 20, 30] (rangeOf [10, 20, 30])).length →
      ∃ T, tile (ptr [10, 20, 30]) (rangeOf [10, 20, 30]) 4 = .ok T) :=
  tile_fatal_iff [10, 20, 30] (rangeOf [10, 20, 30]) 4 (by decide) (by decide) (by decide)

/-! ## split and the standard split -/

theorem SplitsTo.nonempty {α : Type} {mem : List α} {d : α} {e i : Int}
    {segs : List (GenericRange Int)} (h : SplitsTo mem d e i segs) (h0 : 0 ≤ i)
    (he : e ≤ mem.length) : ∀ r ∈ segs, elems mem r ≠ [] := by
  induction h with
  | done => simp
  | last i h1 _ =>
    intro r hr
    simp only [List.mem_singleton] at hr
    subst hr
    obtain ⟨_, hs⟩ := slice_cons mem i e h0 h1 he
    simp [elems, hs]
  | cons i p segs h1 h2 _ _ _ ih =>
    intro r hr
    simp only [List.mem_cons] at hr
    rcases hr with hr | hr
    · subst hr
      obtain ⟨_, hs⟩ := slice_cons mem i p h0 h1 (by omega)
      simp [elems, hs]
    · exact ih (by omega) r hr

theorem SplitsTo.free {α : Type} {mem : List α} {d : α} {e i : Int}
    {segs : List (GenericRange Int)} (h : SplitsTo mem d e i segs) (h0 : 0 ≤ i)
    (he : e ≤ mem.length) (hi : mem[i.toNat]? ≠ some d)
    (hadj : ∀ j : Nat, mem[j]? = some d → mem[j + 1]? ≠ some d) :
    ∀ r ∈ segs, d ∉ elems mem r := by
  induction h with
  | done => simp
  | last i h1 hn =>
    intro r hr
    simp only [List.mem_singleton] at hr
    subst hr
    obtain ⟨hb, hs⟩ := slice_cons mem i e h0 h1 he
    rw [List.getElem?_eq_getElem hb] at hi
    simp only [elems, hs, List.mem_cons, not_or]
    exact ⟨fun hd => hi (by rw [hd]), hn⟩
  | cons i p segs h1 h2 hn hat _ ih =>
    intro r hr
    simp only [List.mem_cons] at hr
    rcases hr with hr | hr
    · subst hr
      obtain ⟨hb, hs⟩ := slice_cons mem i p h0 h1 (by omega)
      rw [List.getElem?_eq_getElem hb] at hi
      simp only [elems, hs, List.mem_cons, not_or]
      exact ⟨fun hd => hi (by rw [hd]), hn⟩
    · have hp : (p + 1).toNat = p.toNat + 1 := by omega
      exact ih (by omega) (by rw [hp]; exact hadj p.toNat hat) r hr

theorem SplitsTo.single {α : Type} {mem : List α} {d : α} {e i : Int}
    {segs : List (GenericRange Int)} (h : SplitsTo mem d e i segs) (hi : i ≠ e)
    (hd : ∀ j : Nat, mem[j]? ≠ some d) : segs = [⟨i, e⟩] := by
  cases h with
  | done => exact absurd rfl hi
  | last _ _ _ => rfl
  | cons _ p _ _ _ _ hat _ => exact absurd hat (hd p.toNat)

theorem split_each_ptr {α : Type} [DecidableEq α] (S : List α) (d : α) (fuel : Nat)
    (hf : S.length < fuel) :
    ∃ segs, SplitsTo S d S.length 0 segs ∧
      each (SplitIterator.cursor (ptr S).toCursor fuel) fuel (split (rangeOf S) d)
        = .ok segs := by
  obtain ⟨segs, hsegs, hrun⟩ := split_rangeFor_ptr (σ := List (GenericRange Int)) S d S.length
    (le_refl _) fuel S.length fuel 0 (le_refl 0) (by omega) (by simpa using hf) (by simp) hf
  refine ⟨segs, hsegs, ?_⟩
  simp only [each, split, rangeOf]
  rw [hrun, foldl_snoc]
  rfl

theorem SplitsTo.standard {α : Type} [DecidableEq α] {S : List α} {d : α}
    {segs : List (GenericRange Int)} (hsegs : SplitsTo S d S.length 0 segs)
    (hne : S ≠ []) (hfirst : S.head? ≠ some d) (hlast : S.getLast? ≠ some d)
    (hadj : ∀ j : Nat, S[j]? = some d → S[j + 1]? ≠ some d) :
    segs.map (elems S) = S.splitOn d ∧ ∀ r ∈ segs, d ∉ elems S r := by
  have hlen : (0 : Int) ≠ S.length := by
    have : S.length ≠ 0 := fun h => hne (List.length_eq_zero.mp h)
    omega
  have h0 : S[(0 : Int).toNat]? ≠ some d := by
    simpa [List.head?_eq_getElem?] using hfirst
  have hfree := hsegs.free (le_refl 0) (le_refl _) h0 hadj
  have hjoin := (hsegs.join (le_refl 0) (le_refl _)).2 (Or.inr (by
    have : ((S.length : Int) - 1).toNat = S.length - 1 := by omega
    rw [this, ← List.getLast?_eq_getElem?]
    exact hlast))
  rw [slice_full] at hjoin
  have hnil : segs.map (elems S) ≠ [] := by
    simpa using hsegs.ne_nil hlen
  refine ⟨?_, hfree⟩
  have hx : ∀ l ∈ segs.map (elems S), d ∉ l := by
    intro l hl
    simp only [List.mem_map] at hl
    obtain ⟨r, hr, rfl⟩ := hl
    exact hfree r hr
  have hsp : (List.intercalate [d] (segs.map (elems S))).splitOn d = segs.map (elems S) :=
    List.splitOn_intercalate (segs.map (elems S)) d hx hnil
  rw [hjoin] at hsp
  exact hsp.symm

theorem split_example :
    (each (SplitIterator.cursor (ptr "This is some String.".toList).toCursor 21) 21
      (split (rangeOf "This is some String.".toList) ' ')).map
        (List.map (elems "This is some String.".toList))
      = .ok ["This".toList, "is".toList, "some".toList, "String.".toList] := by
  decide

/-- C11: for a non-empty `S` in which `d` is neither the first nor the last
element and never occurs twice in succession, iterating `split( S, d )` ends and
yields exactly the standard split of `S` at `d` (`List.splitOn`), every
sub-range being non-empty and free of `d`; an `S` without `d` yields the one
sub-range `S`; and `"This is some String."` split at the blank yields `"This"`,
`"is"`, `"some"`, `"String."`. -/
theorem split_standard {α : Type} [DecidableEq α] (S : List α) (d : α) (fuel : Nat)
    (hne : S ≠ []) (hfirst : S.head? ≠ some d) (hlast : S.getLast? ≠ some d)
    (hadj : ∀ j : Nat, S[j]? = some d → S[j + 1]? ≠ some d) (hf : S.length < fuel) :
    (∃ parts, each (SplitIterator.cursor (ptr S).toCursor fuel) fuel (split (rangeOf S) d)
        = .ok parts ∧
      parts.map (elems S) = S.splitOn d ∧
      (∀ l ∈ parts.map (elems S), l ≠ [] ∧ d ∉ l) ∧
      (d ∉ S → parts.map (elems S) = [S])) ∧
    (each (SplitIterator.cursor (ptr "This is some String.".toList).toCursor 21) 21
      (split (rangeOf "This is some String.".toList) ' ')).map
        (List.map (elems "This is some String.".toList))
      = .ok ["This".toList, "is".toList, "some".toList, "String.".toList] := by
  obtain ⟨segs, hsegs, hrun⟩ := split_each_ptr S d fuel hf
  obtain ⟨hstd, hfree⟩ := hsegs.standard hne hfirst hlast hadj
  have hlen : (0 : Int) ≠ S.length := by
    have : S.length ≠ 0 := fun h => hne (List.length_eq_zero.mp h)
    omega
  refine ⟨⟨segs, hrun, hstd, ?_, ?_⟩, split_example⟩
  · intro l hl
    simp only [List.mem_map] at hl
    obtain ⟨r, hr, rfl⟩ := hl
    exact ⟨hsegs.nonempty (le_refl 0) (le_refl _) r hr, hfree r hr⟩
  · intro hd
    have hs := hsegs.single hlen (fun j hj => hd (List.getElem?_mem hj))
    rw [hs]
    simp [elems, slice_full]

/-- C12, amended: for every character sequence the iteration of `byLine` ends
and never yields an empty sub-range, also where two line feeds are adjacent;
for a non-empty text that neither begins nor ends with a line feed and has no
two adjacent line feeds it yields exactly the lines of the text, in order. -/
theorem byLine_spec (text : List Char) (fuel : Nat) (hf : text.length < fuel) :
    ∃ parts, each (SplitIterator.cursor (ptr text).toCursor fuel) fuel (byLine text)
        = .ok parts ∧
      (∀ r ∈ parts, elems text r ≠ []) ∧
      (text ≠ [] → text.head? ≠ some '\n' → text.getLast? ≠ some '\n' →
        (∀ j : Nat, text[j]? = some '\n' → text[j + 1]? ≠ some '\n') →
        parts.map (elems text) = text.splitOn '\n') := by
  obtain ⟨segs, hsegs, hrun⟩ := split_each_ptr text '\n' fuel hf
  exact ⟨segs, hrun, hsegs.nonempty (le_refl 0) (le_refl _),
    fun hne hfirst hlast hadj => (hsegs.standard hne hfirst hlast hadj).1⟩

/-- C12 as stated fails: `byLine( "a\nb\n\nc" )` yields three sub-ranges,
`"a"`, `"b"` and `"\nc"`, none of them empty, not `"a"`, `"b"`, `""`, `"c"`. -/
theorem byLine_counterexample :
    each (SplitIterator.cursor (ptr ['a', '\n', 'b', '\n', '\n', 'c']).toCursor 7) 7
      (byLine ['a', '\n', 'b', '\n', '\n', 'c']) = .ok [⟨0, 1⟩, ⟨2, 3⟩, ⟨4, 6⟩] ∧
    [(⟨0, 1⟩ : GenericRange Int), ⟨2, 3⟩, ⟨4, 6⟩].map (elems ['a', '\n', 'b', '\n', '\n', 'c'])
      = [['a'], ['b'], ['\n', 'c']] ∧
    [(⟨0, 1⟩ : GenericRange Int), ⟨2, 3⟩, ⟨4, 6⟩].map (elems ['a', '\n', 'b', '\n', '\n', 'c'])
      ≠ [['a'], ['b'], [], ['c']] := by
  decide

/-- The hypotheses of `split_standard` hold for `"a b"` split at the blank with
a budget of four steps. -/
theorem split_standard_witness :
    (∃ parts, each (SplitIterator.cursor (ptr ['a', ' ', 'b']).toCursor 4) 4
        (split (rangeOf ['a', ' ', 'b']) ' ') = .ok parts ∧
      parts.map (elems ['a', ' ', 'b']) = ['a', ' ', 'b'].splitOn ' ' ∧
      (∀ l ∈ parts.map (elems ['a', ' ', 'b']), l ≠ [] ∧ ' ' ∉ l) ∧
      (' ' ∉ ['a', ' ', 'b'] → parts.map (elems ['a', ' ', 'b']) = [['a', ' ', 'b']])) ∧
    (each (SplitIterator.cursor (ptr "This is some String.".toList).toCursor 21) 21
      (split (rangeOf "This is some String.".toList) ' ')).map
        (List.map (elems "This is some String.".toList))
      = .ok ["This".toList, "is".toList, "some".toList, "String.".toList] :=
  split_standard ['a', ' ', 'b'] ' ' 4 (by decide) (by decide) (by decide)
    (by
      intro j hj
      rcases j with _ | _ | _ | j <;> simp_all)
    (by decide)

/-- The hypothesis of `byLine_spec` holds for the text `"a\nb"` with a budget of
four steps. -/
theorem byLine_spec_witness :
    ['a', '\n', 'b'].length < 4 ∧
    ∃ parts, each (SplitIterator.cursor (ptr ['a', '\n', 'b']).toCursor 4) 4
        (byLine ['a', '\n', 'b']) = .ok parts ∧
      (∀ r ∈ parts, elems ['a', '\n', 'b'] r ≠ []) ∧
      (['a', '\n', 'b'] ≠ [] → ['a', '\n', 'b'].head? ≠ some '\n' →
        ['a', '\n', 'b'].getLast? ≠ some '\n' →
        (∀ j : Nat, ['a', '\n', 'b'][j]? = some '\n' → ['a', '\n', 'b'][j + 1]? ≠ some '\n') →
        parts.map (elems ['a', '\n', 'b']) = ['a', '\n', 'b'].splitOn '\n') :=
  ⟨by decide, byLine_spec ['a', '\n', 'b'] 4 (by decide)⟩

/-! ## filter under map -/

theorem filter_skip_ptr {α : Type} (mem : List α) (p : α → Bool) (e : Int)
    (he : e ≤ mem.length) (hlast : ∀ v, mem[(e - 1).toNat]? = some v → p v = true) (k : Nat) :
    ∀ (fuel : Nat) (i : Int), 0 ≤ i → i < e → (e - i).toNat = k + 1 → k < fuel →
      ∃ j, i ≤ j ∧ j < e ∧
        FilterIterator.skip (ptr mem).toCursor fuel ⟨i, e, p⟩ = .ok ⟨j, e, p⟩ ∧
        (∃ h : j.toNat < mem.length, p mem[j.toNat] = true) ∧
        (slice mem i j).filter p = [] := by
  induction k with
  | zero =>
    intro fuel i h0 h1 hk hf
    obtain ⟨f, rfl⟩ : ∃ f, fuel = f + 1 := ⟨fuel - 1, by omega⟩
    have hb : i.toNat < mem.length := by omega
    have hie : e - 1 = i := by omega
    have hp : p mem[i.toNat] = true := hlast _ (by rw [hie, List.getElem?_eq_getElem hb])
    have hne : ¬ i = e := by omega
    refine ⟨i, le_refl i, h1, ?_, ⟨hb, hp⟩, by simp [slice_self]⟩
    simp [FilterIterator.skip, ptr, hne, h0, List.getElem?_eq_getElem hb, hp, bind,
      Except.bind, pure, Except.pure]
  | succ k ih =>
    intro fuel i h0 h1 hk hf
    obtain ⟨f, rfl⟩ : ∃ f, fuel = f + 1 := ⟨fuel - 1, by omega⟩
    have hb : i.toNat < mem.length := by omega
    have hne : ¬ i = e := by omega
    by_cases hp : p mem[i.toNat] = true
    · refine ⟨i, le_refl i, h1, ?_, ⟨hb, hp⟩, by simp [slice_self]⟩
      simp [FilterIterator.skip, ptr, hne, h0, List.getElem?_eq_getElem hb, hp, bind,
        Except.bind, pure, Except.pure]
    · obtain ⟨j, hij, hje, hs, hpj, hnone⟩ := ih f (i + 1) (by omega) (by omega) (by omega)
        (by omega)
      refine ⟨j, by omega, hje, ?_, hpj, ?_⟩
      · have hs2 := hs
        simp only [ptr] at hs2
        simp [FilterIterator.skip, ptr, hne, h0, List.getElem?_eq_getElem hb, hp, bind,
          Except.bind, hs2]
      · obtain ⟨_, hc⟩ := slice_cons mem i j h0 (by omega) (by omega)
        rw [hc, List.filter_cons_of_neg (by simpa using hp)]
        exact hnone

theorem rangeFor_map_filter_ptr {α β σ : Type} (mem : List α) (p : α → Bool) (f : α → β)
    (body : σ → β → σ) (e : Int) (he : e ≤ mem.length)
    (hlast : ∀ v, mem[(e - 1).toNat]? = some v → p v = true) (cf : Nat) (k : Nat) :
    ∀ (fuel : Nat) (i : Int) (s : σ), 0 ≤ i → i ≤ e → (e - i).toNat < cf →
      (e - i).toNat ≤ k → k < fuel →
      rangeFor (MapIterator.cursor (FilterIterator.cursor (ptr mem).toCursor cf)) body fuel
        ⟨⟨i, e, p⟩, f⟩ ⟨⟨e, e, p⟩, f⟩ s
        = .ok ((((slice mem i e).filter p).map f).foldl body s) := by
  induction k with
  | zero =>
    intro fuel i s h0 h1 hcf hk hf
    obtain ⟨g, rfl⟩ : ∃ g, fuel = g + 1 := ⟨fuel - 1, by omega⟩
    have hie : i = e := by omega
    subst hie
    simp [rangeFor, MapIterator.cursor, FilterIterator.cursor, ptr, slice_self]
  | succ k ih =>
    intro fuel i s h0 h1 hcf hk hf
    obtain ⟨g, rfl⟩ : ∃ g, fuel = g + 1 := ⟨fuel - 1, by omega⟩
    by_cases hie : i = e
    · subst hie
      simp [rangeFor, MapIterator.cursor, FilterIterator.cursor, ptr, slice_self]
    · obtain ⟨j, hij, hje, hs, ⟨hb, hpj⟩, hnone⟩ := filter_skip_ptr mem p e he hlast
        ((e - i).toNat - 1) cf i h0 (by omega) (by omega) (by omega)
      have heq : (MapIterator.cursor (FilterIterator.cursor (ptr mem).toCursor cf)).eq
          ⟨⟨i, e, p⟩, f⟩ ⟨⟨e, e, p⟩, f⟩ = false := by
        simp [MapIterator.cursor, FilterIterator.cursor, ptr, hie]
      have hd : (MapIterator.cursor (FilterIterator.cursor (ptr mem).toCursor cf)).deref
          ⟨⟨i, e, p⟩, f⟩ = .ok (f mem[j.toNat], ⟨⟨j, e, p⟩, f⟩) := by
        have hj0 : 0 ≤ j := by omega
        simp [MapIterator.cursor, FilterIterator.cursor, hs, bind, Except.bind, pure,
          Except.pure, ptr_deref mem j hj0 hb]
      have hi : (MapIterator.cursor (FilterIterator.cursor (ptr mem).toCursor cf)).inc
          ⟨⟨j, e, p⟩, f⟩ = .ok ⟨⟨j + 1, e, p⟩, f⟩ := by
        have hne : ¬ j = e := by omega
        simp [MapIterator.cursor, FilterIterator.cursor, FilterIterator.next, ptr, hne, bind,
          Except.bind, pure, Except.pure]
      have hrec := ih g (j + 1) (body s (f mem[j.toNat])) (by omega) (by omega) (by omega)
        (by omega) (by omega)
      have hsl : (slice mem i e).filter p = mem[j.toNat] :: (slice mem (j + 1) e).filter p := by
        obtain ⟨_, hc⟩ := slice_cons mem j e (by omega) hje he
        rw [slice_append mem i j e h0 hij (by omega), List.filter_append, hnone, hc,
          List.nil_append, List.filter_cons_of_pos hpj]
      simp only [rangeFor, heq, hd, hi, bind, Except.bind, Bool.false_eq_true, if_false]
      rw [hrec, hsl]
      rfl

theorem filter_map_iota_example :
    each (MapIterator.cursor (FilterIterator.cursor (IotaIterator.cursor IntType.int).toCursor 11)) 11
      (map (fun e : Int => e * 3 + 2) (filter (fun e : Int => decide (e > 3)) (iota IntType.int 0 10 1)))
      = .ok [14, 17, 20, 23, 26, 29] := by
  decide

theorem filter_map_ptr {α β : Type} (mem : List α) (r : GenericRange Int) (p : α → Bool)
    (f : α → β) (fuel : Nat) (h : InBounds mem r)
    (hlast : ∀ x, (elems mem r).getLast? = some x → p x = true)
    (hf : (elems mem r).length < fuel) :
    each (MapIterator.cursor (FilterIterator.cursor (ptr mem).toCursor fuel)) fuel
      (map f (filter p r)) = .ok (((elems mem r).filter p).map f) := by
  have hl := elems_length mem r h
  obtain ⟨h0, h1, h2⟩ := h
  by_cases hbe : r._b = r._e
  · obtain ⟨g, rfl⟩ : ∃ g, fuel = g + 1 := ⟨fuel - 1, by omega⟩
    simp [each, map, filter, rangeFor, MapIterator.cursor, FilterIterator.cursor, ptr, hbe,
      elems, slice_self]
  · have hlast2 : ∀ v, mem[(r._e - 1).toNat]? = some v → p v = true := by
      intro v hv
      apply hlast
      have hl2 : ((slice mem r._b r._e).length : Int) = r._e - r._b := hl
      have hidx : r._b + (((slice mem r._b r._e).length - 1 : Nat) : Int) = r._e - 1 := by
        omega
      rw [List.getLast?_eq_getElem?]
      show (slice mem r._b r._e)[(slice mem r._b r._e).length - 1]? = some v
      rw [slice_getElem? mem r._b r._e _ h0 (by omega), hidx]
      exact hv
    have hrun := rangeFor_map_filter_ptr mem p f (fun trace e => trace ++ [e]) r._e h2 hlast2
      fuel (elems mem r).length fuel r._b [] h0 h1 (by omega) (by omega) hf
    simp only [each, map, filter]
    rw [hrun, foldl_snoc]
    rfl

/-- C14: for a range `S` of pointers that is empty or whose last element
satisfies `p`, iterating `S.filter( p ).map( f )` ends and yields exactly `f( x )`
for the elements `x` of `S` with `p( x )`, in their order; and
`iota( 0, 10 ).filter( e > 3 ).map( e * 3 + 2 )` yields 14, 17, 20, 23, 26, 29. -/
theorem filter_map_spec {α β : Type} (mem : List α) (r : GenericRange Int) (p : α → Bool)
    (f : α → β) (fuel : Nat) (h : InBounds mem r)
    (hlast : ∀ x, (elems mem r).getLast? = some x → p x = true)
    (hf : (elems mem r).length < fuel) :
    each (MapIterator.cursor (FilterIterator.cursor (ptr mem).toCursor fuel)) fuel
      (map f (filter p r)) = .ok (((elems mem r).filter p).map f) ∧
    each (MapIterator.cursor (FilterIterator.cursor (IotaIterator.cursor IntType.int).toCursor 11)) 11
      (map (fun e : Int => e * 3 + 2) (filter (fun e : Int => decide (e > 3)) (iota IntType.int 0 10 1)))
      = .ok [14, 17, 20, 23, 26, 29] :=
  ⟨filter_map_ptr mem r p f fuel h hlast hf, filter_map_iota_example⟩

/-- The hypotheses of `filter_map_spec` hold for the array `1, 2, 3, 4`, the
predicate `e > 2`, the function `e * 2` and a budget of five steps. -/
theorem filter_map_spec_witness :
    each (MapIterator.cursor (FilterIterator.cursor (ptr [1, 2, 3, 4]).toCursor 5)) 5
      (map (fun e : Int => e * 2) (filter (fun e : Int => decide (e > 2)) (rangeOf [1, 2, 3, 4])))
      = .ok (((elems [1, 2, 3, 4] (rangeOf [1, 2, 3, 4])).filter
          (fun e : Int => decide (e > 2))).map (fun e : Int => e * 2)) ∧
    each (MapIterator.cursor (FilterIterator.cursor (IotaIterator.cursor IntType.int).toCursor 11)) 11
      (map (fun e : Int => e * 3 + 2) (filter (fun e : Int => decide (e > 3)) (iota IntType.int 0 10 1)))
      = .ok [14, 17, 20, 23, 26, 29] :=
  filter_map_spec [1, 2, 3, 4] (rangeOf [1, 2, 3, 4]) (fun e : Int => decide (e > 2))
    (fun e : Int => e * 2) 5 (by decide)
    (by
      intro x hx
      have hx2 : x = 4 := by
        have : (elems ([1, 2, 3, 4] : List Int) (rangeOf [1, 2, 3, 4])).getLast? = some 4 := by
          decide
        rw [this] at hx
        exact (Option.some.inj hx).symm
      subst hx2
      decide)
    (by decide)

/-! ## filter and map commute -/

theorem map_deref_ok {I V W : Type} (c : Cursor I V) (f : V → W) (i i1 : I) (v : V)
    (h : c.deref i = .ok (v, i1)) :
    (MapIterator.cursor c).deref ⟨i, f⟩ = .ok (f v, ⟨i1, f⟩) := by
  simp [MapIterator.cursor, h, bind, Except.bind, pure, Except.pure]

theorem map_deref_error {I V W : Type} (c : Cursor I V) (f : V → W) (i : I) (err : Fault)
    (h : c.deref i = .error err) :
    (MapIterator.cursor c).deref (⟨i, f⟩ : MapIterator I V W) = .error err := by
  simp [MapIterator.cursor, h, bind, Except.bind]

theorem map_inc_ok {I V W : Type} (c : Cursor I V) (f : V → W) (i i1 : I)
    (h : c.inc i = .ok i1) :
    (MapIterator.cursor c).inc ⟨i, f⟩ = .ok ⟨i1, f⟩ := by
  simp [MapIterator.cursor, h, bind, Except.bind, pure, Except.pure]

theorem map_inc_error {I V W : Type} (c : Cursor I V) (f : V → W) (i : I) (err : Fault)
    (h : c.inc i = .error err) :
    (MapIterator.cursor c).inc (⟨i, f⟩ : MapIterator I V W) = .error err := by
  simp [MapIterator.cursor, h, bind, Except.bind]

theorem map_eq {I V W : Type} (c : Cursor I V) (m o : MapIterator I V W) :
    (MapIterator.cursor c).eq m o = c.eq m.iter o.iter := rfl

theorem filter_eq {I V : Type} (c : Cursor I V) (cf : Nat) (x o : FilterIterator I V) :
    (FilterIterator.cursor c cf).eq x o = c.eq x.iter o.iter := rfl

theorem filter_inc {I V : Type} (c : Cursor I V) (cf : Nat) (x : FilterIterator I V) :
    (FilterIterator.cursor c cf).inc x = FilterIterator.next c x := rfl

theorem filter_deref {I V : Type} (c : Cursor I V) (cf : Nat) (x : FilterIterator I V) :
    (FilterIterator.cursor c cf).deref x
      = (FilterIterator.skip c cf x).bind (fun y =>
          (c.deref y.iter).bind (fun vi => .ok (vi.1, { y with iter := vi.2 }))) := rfl

theorem filter_skip_map {I V W : Type} (c : Cursor I V) (f : V → W) (p : W → Bool) (e : I)
    (n : Nat) : ∀ i : I, ∃ r : Res I,
      FilterIterator.skip c n ⟨i, e, p ∘ f⟩ = r.map (fun j => ⟨j, e, p ∘ f⟩) ∧
      FilterIterator.skip (MapIterator.cursor c) n ⟨⟨i, f⟩, ⟨e, f⟩, p⟩
        = r.map (fun j => ⟨⟨j, f⟩, ⟨e, f⟩, p⟩) := by
  induction n with
  | zero => intro i; exact ⟨.error Fault.fuel, rfl, rfl⟩
  | succ n ih =>
    intro i
    by_cases heq : c.eq i e = true
    · exact ⟨.ok i, by simp [FilterIterator.skip, heq, Except.map],
        by simp [FilterIterator.skip, map_eq, heq, Except.map]⟩
    · cases hd : c.deref i with
      | error err =>
        exact ⟨.error err, by simp [FilterIterator.skip, heq, hd, bind, Except.bind, Except.map],
          by simp [FilterIterator.skip, map_eq, heq, map_deref_error c f i err hd, bind,
            Except.bind, Except.map]⟩
      | ok vi =>
        obtain ⟨v, i1⟩ := vi
        have hd2 := map_deref_ok c f i i1 v hd
        by_cases hp : p (f v) = true
        · exact ⟨.ok i1,
            by simp [FilterIterator.skip, heq, hd, hp, bind, Except.bind, Except.map, pure,
              Except.pure],
            by simp [FilterIterator.skip, map_eq, heq, hd2, hp, bind, Except.bind,
              Except.map, pure, Except.pure]⟩
        · cases hi : c.inc i1 with
          | error err =>
            exact ⟨.error err,
              by simp [FilterIterator.skip, heq, hd, hp, hi, bind, Except.bind, Except.map],
              by simp [FilterIterator.skip, map_eq, heq, hd2, hp,
                map_inc_error c f i1 err hi, bind, Except.bind, Except.map]⟩
          | ok i2 =>
            obtain ⟨r, h1, h2⟩ := ih i2
            refine ⟨r, ?_, ?_⟩
            · simp [FilterIterator.skip, heq, hd, hp, hi, bind, Except.bind, h1]
            · simp [FilterIterator.skip, map_eq, heq, hd2, hp, map_inc_ok c f i1 i2 hi, bind,
                Except.bind, h2]

theorem rangeFor_filter_map_comm {I V W σ : Type} (c : Cursor I V) (f : V → W) (p : W → Bool)
    (body : σ → W → σ) (e : I) (cf : Nat) (fuel : Nat) : ∀ (i : I) (s : σ),
      rangeFor (FilterIterator.cursor (MapIterator.cursor c) cf) body fuel
        ⟨⟨i, f⟩, ⟨e, f⟩, p⟩ ⟨⟨e, f⟩, ⟨e, f⟩, p⟩ s
      = rangeFor (MapIterator.cursor (FilterIterator.cursor c cf)) body fuel
        ⟨⟨i, e, p ∘ f⟩, f⟩ ⟨⟨e, e, p ∘ f⟩, f⟩ s := by
  induction fuel with
  | zero => intro i s; rfl
  | succ fuel ih =>
    intro i s
    by_cases heq : c.eq i e = true
    · simp [rangeFor, filter_eq, map_eq, heq]
    · obtain ⟨r, h1, h2⟩ := filter_skip_map c f p e cf i
      cases r with
      | error err =>
        simp only [Except.map] at h1 h2
        have hB : (FilterIterator.cursor c cf).deref ⟨i, e, p ∘ f⟩ = .error err := by
          rw [filter_deref, h1]; rfl
        simp [rangeFor, filter_eq, map_eq, heq, filter_deref, h2, map_deref_error _ f _ err hB,
          bind, Except.bind]
      | ok j =>
        simp only [Except.map] at h1 h2
        cases hd : c.deref j with
        | error err =>
          have hB : (FilterIterator.cursor c cf).deref ⟨i, e, p ∘ f⟩ = .error err := by
            rw [filter_deref, h1]; simp [Except.bind, hd]
          simp [rangeFor, filter_eq, map_eq, heq, filter_deref, h2, map_deref_error c f j err hd,
            map_deref_error _ f _ err hB, bind, Except.bind]
        | ok vi =>
          obtain ⟨v, j1⟩ := vi
          have hB : (FilterIterator.cursor c cf).deref ⟨i, e, p ∘ f⟩
              = .ok (v, ⟨j1, e, p ∘ f⟩) := by
            rw [filter_deref, h1]; simp [Except.bind, hd]
          have hA : (FilterIterator.cursor (MapIterator.cursor c) cf).deref
              ⟨⟨i, f⟩, ⟨e, f⟩, p⟩ = .ok (f v, ⟨⟨j1, f⟩, ⟨e, f⟩, p⟩) := by
            rw [filter_deref, h2]; simp [Except.bind, map_deref_ok c f j j1 v hd]
          have hB2 := map_deref_ok (FilterIterator.cursor c cf) f _ _ v hB
          by_cases heq1 : c.eq j1 e = true
          · have hAi : (FilterIterator.cursor (MapIterator.cursor c) cf).inc
                ⟨⟨j1, f⟩, ⟨e, f⟩, p⟩ = .ok ⟨⟨j1, f⟩, ⟨e, f⟩, p⟩ := by
              simp [filter_inc, FilterIterator.next, map_eq, heq1]
            have hBi : (FilterIterator.cursor c cf).inc ⟨j1, e, p ∘ f⟩
                = .ok ⟨j1, e, p ∘ f⟩ := by
              simp [filter_inc, FilterIterator.next, heq1]
            have hBi2 := map_inc_ok (FilterIterator.cursor c cf) f _ _ hBi
            have hne : (FilterIterator.cursor (MapIterator.cursor c) cf).eq
                ⟨⟨i, f⟩, ⟨e, f⟩, p⟩ ⟨⟨e, f⟩, ⟨e, f⟩, p⟩ = false := by
              simpa [filter_eq, map_eq] using heq
            have hne2 : (MapIterator.cursor (FilterIterator.cursor c cf)).eq
                ⟨⟨i, e, p ∘ f⟩, f⟩ ⟨⟨e, e, p ∘ f⟩, f⟩ = false := by
              simpa [filter_eq, map_eq] using heq
            simp only [rangeFor, hne, hne2, hA, hAi, hB2, hBi2, bind, Except.bind,
              Bool.false_eq_true, if_false]
            exact ih j1 (body s (f v))
          · cases hi : c.inc j1 with
            | error err =>
              have hAi : (FilterIterator.cursor (MapIterator.cursor c) cf).inc
                  ⟨⟨j1, f⟩, ⟨e, f⟩, p⟩ = .error err := by
                simp [filter_inc, FilterIterator.next, map_eq, heq1,
                  map_inc_error c f j1 err hi, bind, Except.bind]
              have hBi : (FilterIterator.cursor c cf).inc ⟨j1, e, p ∘ f⟩ = .error err := by
                simp [filter_inc, FilterIterator.next, heq1, hi, bind, Except.bind]
              have hBi2 := map_inc_error (FilterIterator.cursor c cf) f _ err hBi
              have hne : (FilterIterator.cursor (MapIterator.cursor c) cf).eq
                  ⟨⟨i, f⟩, ⟨e, f⟩, p⟩ ⟨⟨e, f⟩, ⟨e, f⟩, p⟩ = false := by
                simpa [filter_eq, map_eq] using heq
              have hne2 : (MapIterator.cursor (FilterIterator.cursor c cf)).eq
                  ⟨⟨i, e, p ∘ f⟩, f⟩ ⟨⟨e, e, p ∘ f⟩, f⟩ = false := by
                simpa [filter_eq, map_eq] using heq
              simp only [rangeFor, hne, hne2, hA, hAi, hB2, hBi2, bind, Except.bind,
                Bool.false_eq_true, if_false]
            | ok j2 =>
              have hAi : (FilterIterator.cursor (MapIterator.cursor c) cf).inc
                  ⟨⟨j1, f⟩, ⟨e, f⟩, p⟩ = .ok ⟨⟨j2, f⟩, ⟨e, f⟩, p⟩ := by
                simp [filter_inc, FilterIterator.next, map_eq, heq1,
                  map_inc_ok c f j1 j2 hi, bind, Except.bind, pure, Except.pure]
              have hBi : (FilterIterator.cursor c cf).inc ⟨j1, e, p ∘ f⟩
                  = .ok ⟨j2, e, p ∘ f⟩ := by
                simp [filter_inc, FilterIterator.next, heq1, hi, bind, Except.bind, pure,
                  Except.pure]
              have hBi2 := map_inc_ok (FilterIterator.cursor c cf) f _ _ hBi
              have hne : (FilterIterator.cursor (MapIterator.cursor c) cf).eq
                  ⟨⟨i, f⟩, ⟨e, f⟩, p⟩ ⟨⟨e, f⟩, ⟨e, f⟩, p⟩ = false := by
                simpa [filter_eq, map_eq] using heq
              have hne2 : (MapIterator.cursor (FilterIterator.cursor c cf)).eq
                  ⟨⟨i, e, p ∘ f⟩, f⟩ ⟨⟨e, e, p ∘ f⟩, f⟩ = false := by
                simpa [filter_eq, map_eq] using heq
              simp only [rangeFor, hne, hne2, hA, hAi, hB2, hBi2, bind, Except.bind,
                Bool.false_eq_true, if_false]
              exact ih j2 (body s (f v))

/-- C13: for every range `S`, over any cursor, every function `f` and predicate
`p`, iterating `filter( p, map( f, S ) )` and iterating
`map( f, filter( p ∘ f, S ) )` give the same outcome, so the same sequence of
values whenever one of them ends; over the array `1, 2, 3, 4, 5` with `f = e * e`
and `p = e > 10` both yield 16, 25. -/
theorem filter_map_commute {I V W : Type} (c : Cursor I V) (f : V → W) (p : W → Bool)
    (S : GenericRange I) (fuel : Nat) :
    each (FilterIterator.cursor (MapIterator.cursor c) fuel) fuel (filter p (map f S))
      = each (MapIterator.cursor (FilterIterator.cursor c fuel)) fuel
          (map f (filter (p ∘ f) S)) ∧
    each (FilterIterator.cursor (MapIterator.cursor (ptr [1, 2, 3, 4, 5]).toCursor) 6) 6
        (filter (fun e : Int => decide (e > 10)) (map (fun e : Int => e * e)
          (rangeOf [1, 2, 3, 4, 5]))) = .ok [16, 25] ∧
    each (MapIterator.cursor (FilterIterator.cursor (ptr [1, 2, 3, 4, 5]).toCursor 6)) 6
        (map (fun e : Int => e * e) (filter ((fun e : Int => decide (e > 10)) ∘
          (fun e : Int => e * e)) (rangeOf [1, 2, 3, 4, 5]))) = .ok [16, 25] :=
  ⟨rangeFor_filter_map_comm c f p _ S._e fuel fuel S._b [], by decide, by decide⟩

/-! ## reduce as a fold, the size of a filtered range -/

theorem reduce_unfold {I V : Type} (c : RandomCursor I V) (fn : V → V → V) (fuel : Nat)
    (r rest : GenericRange I) (n : Int) (x1 : V) (i : I)
    (hsize : r.size c.toCursor = .ok n) (hn : 0 < n) (hd : c.deref r._b = .ok (x1, i))
    (hdrop : drop c r 1 = .ok rest) :
    reduce c fn fuel r = fold c.toCursor fn x1 fuel rest := by
  simp [reduce, fold, range, hsize, hn, hd, hdrop, assert, bind, Except.bind]

/-- C21 as stated fails on views whose cursor is not a pointer: the descending
`iota( 5, 1, -1 )` has size 4 and yields 5, 4, 3, 2, yet `reduce` is an assertion
failure for every step budget, the `drop` it calls asserting `b < e` on the
values 4 and 1. -/
theorem reduce_counterexample :
    (iota IntType.int 5 1 (-1)).size (IotaIterator.cursor IntType.int).toCursor = .ok 4 ∧
    each (IotaIterator.cursor IntType.int).toCursor 5 (iota IntType.int 5 1 (-1))
      = .ok [5, 4, 3, 2] ∧
    ¬ ∃ fuel : Nat,
      reduce (IotaIterator.cursor IntType.int) (fun a b => a + b) fuel (iota IntType.int 5 1 (-1))
        ≠ .error Fault.assertion := by
  refine ⟨by decide, by decide, ?_⟩
  rintro ⟨fuel, h⟩
  exact h rfl

/-- C21, amended: for a range `S` of pointers into an array with at least two
elements and every function `f`, `reduce( f, S )` ends with a result and is
`fold( f, x1, drop( S, 1 ) )`, `x1` being the first element of `S` and
`drop( S, 1 )` the range of the others; and for a range over any cursor, once
the size is positive, the first element read and `drop( S, 1 )` taken, `reduce`
is that `fold`. -/
theorem reduce_eq_fold {α : Type} (mem : List α) (r : GenericRange Int) (fn : α → α → α)
    (fuel : Nat) (h : InBounds mem r) (h2 : 2 ≤ (elems mem r).length)
    (hf : (elems mem r).length < fuel) :
    (∃ x1 rest, (elems mem r).head? = some x1 ∧ drop (ptr mem) r 1 = .ok rest ∧
      elems mem rest = (elems mem r).tail ∧
      reduce (ptr mem) fn fuel r = fold (ptr mem).toCursor fn x1 fuel rest ∧
      reduce (ptr mem) fn fuel r = .ok ((elems mem r).tail.foldl fn x1)) ∧
    (∀ (I : Type) (c : RandomCursor I α) (v rest : GenericRange I) (n : Int) (x1 : α) (i : I),
      v.size c.toCursor = .ok n → 0 < n → c.deref v._b = .ok (x1, i) →
      drop c v 1 = .ok rest → reduce c fn fuel v = fold c.toCursor fn x1 fuel rest) := by
  have hl := elems_length mem r h
  obtain ⟨h0, h1, h3⟩ := h
  obtain ⟨hb, hs⟩ := slice_cons mem r._b r._e h0 (by omega) h3
  have hdrop : drop (ptr mem) r 1 = .ok ⟨r._b + 1, r._e⟩ := by
    have hlt : r._b + 1 < r._e := by omega
    simp [drop, ptr, assert, bind, Except.bind, pure, Except.pure, hlt]
  have hsize : r.size (ptr mem).toCursor = .ok (r._e - r._b) := rfl
  have hd := ptr_deref mem r._b h0 hb
  have hred := reduce_unfold (ptr mem) fn fuel r _ _ _ _ hsize (by omega) hd hdrop
  have hfold : fold (ptr mem).toCursor fn mem[r._b.toNat] fuel ⟨r._b + 1, r._e⟩
      = .ok ((slice mem (r._b + 1) r._e).foldl fn mem[r._b.toNat]) :=
    rangeFor_ptr mem _ _ fuel (r._b + 1) r._e _ (by omega) (by omega) h3 rfl (by omega)
  have htail : (elems mem r).tail = slice mem (r._b + 1) r._e := by
    simp [elems, hs]
  refine ⟨⟨mem[r._b.toNat], ⟨r._b + 1, r._e⟩, by simp [elems, hs], hdrop, htail.symm, hred, ?_⟩,
    fun I c v rest n x1 i hsz hn hdr hdp => reduce_unfold c fn fuel v rest n x1 i hsz hn hdr hdp⟩
  rw [hred, hfold, htail]

/-- The hypotheses of `reduce_eq_fold` hold for the array `1, 2, 3`, addition and
a budget of four steps. -/
theorem reduce_eq_fold_witness :
    (∃ x1 rest, (elems ([1, 2, 3] : List Int) (rangeOf [1, 2, 3])).head? = some x1 ∧
      drop (ptr [1, 2, 3]) (rangeOf [1, 2, 3]) 1 = .ok rest ∧
      elems ([1, 2, 3] : List Int) rest = (elems [1, 2, 3] (rangeOf [1, 2, 3])).tail ∧
      reduce (ptr [1, 2, 3]) (fun a b : Int => a + b) 4 (rangeOf [1, 2, 3])
        = fold (ptr [1, 2, 3]).toCursor (fun a b : Int => a + b) x1 4 rest ∧
      reduce (ptr [1, 2, 3]) (fun a b : Int => a + b) 4 (rangeOf [1, 2, 3])
        = .ok ((elems [1, 2, 3] (rangeOf [1, 2, 3])).tail.foldl (fun a b : Int => a + b) x1)) ∧
    (∀ (I : Type) (c : RandomCursor I Int) (v rest : GenericRange I) (n : Int) (x1 : Int)
        (i : I),
      v.size c.toCursor = .ok n → 0 < n → c.deref v._b = .ok (x1, i) →
      drop c v 1 = .ok rest →
      reduce c (fun a b : Int => a + b) 4 v
        = fold c.toCursor (fun a b : Int => a + b) x1 4 rest) :=
  reduce_eq_fold [1, 2, 3] (rangeOf [1, 2, 3]) (fun a b : Int => a + b) 4 (by decide)
    (by decide) (by decide)

/-! ## split: progress and the assertion of reparse_for_end -/

theorem SplitsTo.length_le {α : Type} {mem : List α} {d : α} {e i : Int}
    {segs : List (GenericRange Int)} (h : SplitsTo mem d e i segs) :
    (segs.length : Int) ≤ e - i := by
  induction h with
  | done => simp
  | last i h1 _ => simp only [List.length_singleton]; omega
  | cons i p segs h1 h2 _ _ _ ih =>
    simp only [List.length_cons]
    push_cast
    omega

theorem split_reparse_ptr {α : Type} [DecidableEq α] (mem : List α) (d : α) (e i p : Int)
    (cf : Nat) (hs : SplitIterator.scan (ptr mem).toCursor e d cf i = .ok p) (hne : i ≠ p) :
    SplitIterator.reparse_for_end (ptr mem).toCursor cf ⟨i, e, d, i⟩ = .ok ⟨i, e, d, p⟩ := by
  have heq : (ptr mem).toCursor.eq i i = true := by simp [ptr]
  have hne2 : (ptr mem).toCursor.eq i p = false := by simp [ptr, hne]
  simp [SplitIterator.reparse_for_end, heq, hs, hne2, assert, bind, Except.bind, pure,
    Except.pure]

theorem split_next_fresh_ptr {α : Type} [DecidableEq α] (mem : List α) (d : α) (e i p : Int)
    (cf : Nat) (hs : SplitIterator.scan (ptr mem).toCursor e d cf i = .ok p) (hne : i ≠ p) :
    SplitIterator.next (ptr mem).toCursor cf ⟨i, e, d, i⟩
      = .ok ⟨if p = e then e else p + 1, e, d, if p = e then e else p + 1⟩ := by
  have hr := split_reparse_ptr mem d e i p cf hs hne
  simp only [SplitIterator.next, hr, bind, Except.bind]
  by_cases hpe : p = e
  · subst hpe
    simp [ptr, pure, Except.pure]
  · simp [ptr, pure, Except.pure, hpe]

theorem split_next_progress {α : Type} [DecidableEq α] (mem : List α) (d : α) (e i pe : Int)
    (cf : Nat) (h0 : 0 ≤ i) (h1 : i < e) (he : e ≤ mem.length) (hcf : (e - i).toNat ≤ cf)
    (hpe : pe = i ∨ (i < pe ∧ pe ≤ e)) :
    ∃ j, SplitIterator.next (ptr mem).toCursor cf ⟨i, e, d, pe⟩ = .ok ⟨j, e, d, j⟩ ∧
      i < j ∧ j ≤ e := by
  rcases hpe with hpe | ⟨hlt, hle⟩
  · subst hpe
    obtain ⟨p, hp, hip, hpe, _, _⟩ :=
      scan_ptr mem d e he ((e - pe).toNat - 1) cf pe h0 h1 (by omega) (by omega)
    refine ⟨_, split_next_fresh_ptr mem d e pe p cf hp (by omega), ?_, ?_⟩ <;>
      split <;> omega
  · refine ⟨_, split_inc_ptr mem d e i pe cf (by omega), ?_, ?_⟩ <;> split <;> omega

/-- C22: for every sequence `S` and delimiter `d`, iterating `split( S, d )`
ends, with at most `size( S )` sub-ranges, whatever the place of the delimiters;
and incrementing a split cursor at a position before the end (its cache not yet
computed, or computed for this position) moves it strictly forward and not
past the end. -/
theorem split_terminates {α : Type} [DecidableEq α] (S : List α) (d : α) (fuel : Nat)
    (hf : S.length < fuel) :
    (∃ parts, each (SplitIterator.cursor (ptr S).toCursor fuel) fuel (split (rangeOf S) d)
        = .ok parts ∧ parts.length ≤ S.length) ∧
    (∀ i pe : Int, 0 ≤ i → i < S.length → (pe = i ∨ (i < pe ∧ pe ≤ S.length)) →
      ∃ j, (SplitIterator.cursor (ptr S).toCursor fuel).inc ⟨i, S.length, d, pe⟩
          = .ok ⟨j, S.length, d, j⟩ ∧ i < j ∧ j ≤ S.length) := by
  obtain ⟨segs, hsegs, hrun⟩ := split_each_ptr S d fuel hf
  have hlen := hsegs.length_le
  refine ⟨⟨segs, hrun, by omega⟩, fun i pe h0 h1 hpe => ?_⟩
  exact split_next_progress S d S.length i pe fuel h0 h1 (le_refl _) (by omega) hpe

/-- C24, amended: for every sequence `S` and delimiter `d`, also an `S` of
delimiters only or one that ends with a delimiter, iterating `split( S, d )` ends
without a fault, and `reparse_for_end` passes its assertion `iter != pe_cache`
at every position before the end, on the first call and on the cached one: the
scan increments `pe_cache` before it compares. -/
theorem split_assert_holds {α : Type} [DecidableEq α] (S : List α) (d : α) (fuel : Nat)
    (hf : S.length < fuel) :
    (∃ parts, each (SplitIterator.cursor (ptr S).toCursor fuel) fuel (split (rangeOf S) d)
        = .ok parts) ∧
    (∀ i : Int, 0 ≤ i → i < S.length →
      ∃ p, i < p ∧ p ≤ S.length ∧
        SplitIterator.reparse_for_end (ptr S).toCursor fuel ⟨i, S.length, d, i⟩
          = .ok ⟨i, S.length, d, p⟩ ∧
        SplitIterator.reparse_for_end (ptr S).toCursor fuel ⟨i, S.length, d, p⟩
          = .ok ⟨i, S.length, d, p⟩) := by
  obtain ⟨segs, _, hrun⟩ := split_each_ptr S d fuel hf
  refine ⟨⟨segs, hrun⟩, fun i h0 h1 => ?_⟩
  obtain ⟨p, hp, hip, hpe, _, _⟩ :=
    scan_ptr S d S.length (le_refl _) ((S.length - i).toNat - 1) fuel i h0 h1 (by omega)
      (by omega)
  refine ⟨p, hip, hpe, split_reparse_ptr S d S.length i p fuel hp (by omega), ?_⟩
  have hne : ¬ p = i := by omega
  have hne2 : ¬ i = p := by omega
  simp [SplitIterator.reparse_for_end, ptr, assert, hne, hne2, bind, Except.bind, pure,
    Except.pure]

/-- C24 as stated fails: the iterations of `split( ",", ',' )`, of
`split( "x,", ',' )` and of `split( ",,,", ',' )` end with their sub-ranges; no
assertion fails. -/
theorem split_assert_counterexample :
    each (SplitIterator.cursor (ptr [',']).toCursor 3) 3 (split (rangeOf [',']) ',')
      = .ok [⟨0, 1⟩] ∧
    each (SplitIterator.cursor (ptr ['x', ',']).toCursor 3) 3 (split (rangeOf ['x', ',']) ',')
      = .ok [⟨0, 1⟩] ∧
    each (SplitIterator.cursor (ptr [',', ',', ',']).toCursor 4) 4
      (split (rangeOf [',', ',', ',']) ',') = .ok [⟨0, 1⟩, ⟨2, 3⟩] := by
  decide

/-- The hypothesis of `split_terminates` holds for `",a,,"` split at `','` with a
budget of five steps. -/
theorem split_terminates_witness :
    (∃ parts, each (SplitIterator.cursor (ptr [',', 'a', ',', ',']).toCursor 5) 5
        (split (rangeOf [',', 'a', ',', ',']) ',') = .ok parts ∧
      parts.length ≤ [',', 'a', ',', ','].length) ∧
    (∀ i pe : Int, 0 ≤ i → i < [',', 'a', ',', ','].length →
      (pe = i ∨ (i < pe ∧ pe ≤ [',', 'a', ',', ','].length)) →
      ∃ j, (SplitIterator.cursor (ptr [',', 'a', ',', ',']).toCursor 5).inc
          ⟨i, [',', 'a', ',', ','].length, ',', pe⟩
          = .ok ⟨j, [',', 'a', ',', ','].length, ',', j⟩ ∧
        i < j ∧ j ≤ [',', 'a', ',', ','].length) :=
  split_terminates [',', 'a', ',', ','] ',' 5 (by decide)

/-- The hypothesis of `split_assert_holds` holds for `","` split at `','` with a
budget of two steps. -/
theorem split_assert_holds_witness :
    (∃ parts, each (SplitIterator.cursor (ptr [',']).toCursor 2) 2 (split (rangeOf [',']) ',')
        = .ok parts) ∧
    (∀ i : Int, 0 ≤ i → i < [','].length →
      ∃ p, i < p ∧ p ≤ [','].length ∧
        SplitIterator.reparse_for_end (ptr [',']).toCursor 2 ⟨i, [','].length, ',', i⟩
          = .ok ⟨i, [','].length, ',', p⟩ ∧
        SplitIterator.reparse_for_end (ptr [',']).toCursor 2 ⟨i, [','].length, ',', p⟩
          = .ok ⟨i, [','].length, ',', p⟩) :=
  split_assert_holds [','] ',' 2 (by decide)

end CppRange
